import Mathlib

/-!
Verification of the stats-card renderer (`src/renderer.py`).

This file gives a shallow embedding of the renderer's pure computational
core — the coordinate scaler, language-color assignment, language-bar
segment construction, gradient row coloring, greedy and balanced text
wrapping, and the blurb auto-fit search — and proves the specified
properties about these definitions.

Modelling conventions:
* Python `float` values that participate in exact arithmetic claims
  (scale factors, language percentages, blend factors) are modelled as `ℚ`.
* Python `int(x)` on a number is truncation toward zero (`ratTrunc`);
  Python `round(x)` is round-half-to-even (`pyRound`).
* Rendered text widths are environment data (font metrics), so the wrapping
  functions are parametrized by a width function; heights of rendered lines
  are likewise parameters of the blurb-height computation.
* `for` loops are translated to structural recursion / folds; a `break`
  inside a loop becomes a recursion that discards the remaining elements.
-/

/-- Python `int(q)` on a rational: truncation toward zero. -/
def ratTrunc (q : ℚ) : ℤ :=
  if q < 0 then -(Rat.floor (-q)) else Rat.floor q

/-- Python `round(q)` (one-argument `round`): round half to even. -/
def pyRound (q : ℚ) : ℤ :=
  let f := Rat.floor q
  let r := q - f
  if r < 1/2 then f
  else if 1/2 < r then f + 1
  else if f % 2 = 0 then f else f + 1

theorem rat_floor_eq_intFloor (q : ℚ) : Rat.floor q = ⌊q⌋ := by
  rw [Rat.floor_def', Rat.floor_def]

theorem pyRound_intCast (k : ℤ) : pyRound (k : ℚ) = k := by
  unfold pyRound
  rw [rat_floor_eq_intFloor]
  simp

theorem ratTrunc_intCast (k : ℤ) : ratTrunc (k : ℚ) = k := by
  unfold ratTrunc
  rw [rat_floor_eq_intFloor, rat_floor_eq_intFloor]
  rcases lt_or_le (k : ℚ) 0 with h | h
  · rw [if_pos h, ← Int.cast_neg, Int.floor_intCast]; ring
  · rw [if_neg (not_lt.mpr h), Int.floor_intCast]

/-- For a nonnegative rational, Python truncation agrees with the floor. -/
theorem ratTrunc_nonneg (q : ℚ) (h : 0 ≤ q) : ratTrunc q = ⌊q⌋ := by
  unfold ratTrunc
  simp only [rat_floor_eq_intFloor]
  simp [not_lt.mpr h]

/-- Evaluation rule for `Rat.floor` from bracketing bounds. -/
theorem rat_floor_eval (q : ℚ) (f : ℤ) (h1 : (f : ℚ) ≤ q) (h2 : q < f + 1) :
    Rat.floor q = f := by
  rw [rat_floor_eq_intFloor]
  exact Int.floor_eq_iff.mpr ⟨h1, h2⟩

/-- Evaluation rule for `ratTrunc` on nonnegative input. -/
theorem ratTrunc_eval (q : ℚ) (f : ℤ) (h0 : 0 ≤ q) (h1 : (f : ℚ) ≤ q)
    (h2 : q < f + 1) : ratTrunc q = f := by
  rw [ratTrunc_nonneg q h0]
  exact Int.floor_eq_iff.mpr ⟨h1, h2⟩

/-- Evaluation rule for `pyRound` when the fractional part is below 1/2. -/
theorem pyRound_eval_lt (q : ℚ) (f : ℤ) (h1 : (f : ℚ) ≤ q) (h2 : q < f + 1/2) :
    pyRound q = f := by
  have hf : Rat.floor q = f :=
    rat_floor_eval q f h1 (h2.trans_le (by norm_num))
  unfold pyRound
  rw [hf, if_pos (by linarith)]

/-- Evaluation rule for `pyRound` when the fractional part is above 1/2. -/
theorem pyRound_eval_gt (q : ℚ) (f : ℤ) (h1 : (f : ℚ) + 1/2 < q)
    (h2 : q < f + 1) : pyRound q = f + 1 := by
  have hf : Rat.floor q = f := by
    refine rat_floor_eval q f (le_of_lt (lt_of_le_of_lt (by norm_num) h1)) h2
  unfold pyRound
  rw [hf, if_neg (by push_neg; linarith), if_pos (by linarith)]

/-- Evaluation rule for `pyRound` at an exact half, even floor. -/
theorem pyRound_eval_half_even (q : ℚ) (f : ℤ) (hq : q = f + 1/2)
    (he : f % 2 = 0) : pyRound q = f := by
  have hf : Rat.floor q = f :=
    rat_floor_eval q f (by rw [hq]; norm_num) (by rw [hq]; norm_num)
  unfold pyRound
  rw [hf, if_neg (by rw [hq]; push_neg; norm_num),
    if_neg (by rw [hq]; push_neg; norm_num), if_pos he]

/-- Evaluation rule for `pyRound` at an exact half, odd floor. -/
theorem pyRound_eval_half_odd (q : ℚ) (f : ℤ) (hq : q = f + 1/2)
    (he : f % 2 ≠ 0) : pyRound q = f + 1 := by
  have hf : Rat.floor q = f :=
    rat_floor_eval q f (by rw [hq]; norm_num) (by rw [hq]; norm_num)
  unfold pyRound
  rw [hf, if_neg (by rw [hq]; push_neg; norm_num),
    if_neg (by rw [hq]; push_neg; norm_num), if_neg he]

/-! ## Language colors (`renderer.py` lines 11-30) -/

/-- Fallback colors for languages not in the palette (`FALLBACK_LANGUAGE_COLORS`). -/
def FALLBACK_LANGUAGE_COLORS : List String :=
  ["#e06c75", "#98c379", "#e5c07b", "#61afef", "#c678dd",
   "#56b6c2", "#be5046", "#d19a66", "#abb2bf", "#5c6370"]

/-- Modelled from the spec: the "fixed language→color table"
(`GITHUB_LANGUAGE_COLORS` from the module `language_colors`, which is imported
by `renderer.py` but is not part of the provided sources).  The spec describes
it as static reference data mapping language names to GitHub's palette colors;
a representative selection of entries is used here.  It is an ordered
association list, matching Python dict iteration order. -/
def GITHUB_LANGUAGE_COLORS : List (String × String) :=
  [("Python", "#3572A5"), ("JavaScript", "#f1e05a"), ("TypeScript", "#3178c6"),
   ("Go", "#00ADD8"), ("Rust", "#dea584"), ("Java", "#b07219"),
   ("C", "#555555"), ("Ruby", "#701516"), ("HTML", "#e34c26"),
   ("CSS", "#563d7c")]

/-- Character-wise lowercasing, modelling Python `str.lower()` (the
language names involved are ASCII, where this is exact). -/
def lowerString (s : String) : String := String.mk (s.data.map Char.toLower)

/-- Strip leading and trailing whitespace, modelling Python `str.strip()`. -/
def trimString (s : String) : String :=
  String.mk
    (((s.data.dropWhile Char.isWhitespace).reverse.dropWhile
      Char.isWhitespace).reverse)

/-- `get_language_color`: exact table match, else case-insensitive table
match, else a fallback color indexed modulo the fallback palette's length. -/
def get_language_color (language : String) (fallback_index : ℕ) : String :=
  match GITHUB_LANGUAGE_COLORS.lookup language with
  | some color => color
  | none =>
    let language_lower := lowerString language
    match GITHUB_LANGUAGE_COLORS.find?
        (fun p => lowerString p.1 == language_lower) with
    | some p => p.2
    | none =>
      FALLBACK_LANGUAGE_COLORS.getD
        (fallback_index % FALLBACK_LANGUAGE_COLORS.length) ""

/-- An RGBA color with integer channels, as produced by `hex_to_rgba`. -/
structure Rgba where
  r : ℤ
  g : ℤ
  b : ℤ
  a : ℤ
deriving DecidableEq

/-- Value of one hexadecimal digit (as consumed by Python `int(_, 16)`). -/
def hexDigitVal (c : Char) : ℕ :=
  if '0' ≤ c ∧ c ≤ '9' then c.toNat - 48
  else if 'a' ≤ c ∧ c ≤ 'f' then c.toNat - 87
  else if 'A' ≤ c ∧ c ≤ 'F' then c.toNat - 55
  else 0

/-- `hex_to_rgb`: strip leading `#`, parse three two-digit hex components. -/
def hex_to_rgb (s : String) : ℤ × ℤ × ℤ :=
  let cs := s.toList.dropWhile (fun c => c == '#')
  let comp := fun i =>
    ((16 * hexDigitVal (cs.getD i '0') + hexDigitVal (cs.getD (i+1) '0') : ℕ) : ℤ)
  (comp 0, comp 2, comp 4)

/-- `hex_to_rgba`: RGB from hex plus an explicit alpha channel. -/
def hex_to_rgba (s : String) (alpha : ℤ) : Rgba :=
  let t := hex_to_rgb s
  ⟨t.1, t.2.1, t.2.2, alpha⟩

/-! ## Coordinate scaler (`StatsCardRenderer.__init__` and `_s`) -/

/-- Scale-argument coercion from `__init__`: a non-numeric argument (`none`,
where Python's `float()` raises) or a non-positive value falls back to 2.0. -/
def coerceScale : Option ℚ → ℚ
  | none => 2
  | some s => if s ≤ 0 then 2 else s

/-- `_s`: scale a base-space value to output pixels, `int(round(value * scale))`
(Python's one-argument `round` already yields an integer). -/
def scaleDim (s : ℚ) (base : ℚ) : ℤ := pyRound (base * s)

/-- The scaled dimensions precomputed by `__init__` from the base constants. -/
structure ScaledDims where
  cardWidth : ℤ
  cardHeight : ℤ
  padding : ℤ
  cornerRadius : ℤ
  spriteSize : ℤ
  spriteSpacing : ℤ
  statsStartX : ℤ
  barWidth : ℤ
  barHeight : ℤ
deriving DecidableEq

/-- `__init__`: coerce the scale argument, then scale every base constant
(card 800x400, padding 30, corner radius 20, sprite size 55, sprite spacing 5,
stats-start-x 320, bar width 11, bar height 201). -/
def mkScaledDims (scaleArg : Option ℚ) : ScaledDims :=
  let s := coerceScale scaleArg
  ⟨scaleDim s 800, scaleDim s 400, scaleDim s 30, scaleDim s 20,
   scaleDim s 55, scaleDim s 5, scaleDim s 320, scaleDim s 11, scaleDim s 201⟩

/-! ## Theorems about the scaler (claim C4) -/

/-- C4 (amended): for every positive scale `s`, each scaled dimension equals
`round(base * s)` (Python half-to-even rounding) of its base constant; a
non-positive or non-numeric scale argument is silently replaced by 2.0; and
doubling `s` doubles the canvas dimensions whenever `400 * s` is an integer
(doubling does not hold for arbitrary positive `s`). -/
theorem scaler_dimensions_spec :
    (∀ s : ℚ, 0 < s →
      (mkScaledDims (some s) =
        ⟨pyRound (800 * s), pyRound (400 * s), pyRound (30 * s),
         pyRound (20 * s), pyRound (55 * s), pyRound (5 * s),
         pyRound (320 * s), pyRound (11 * s), pyRound (201 * s)⟩) ∧
      (∀ k : ℤ, (400 : ℚ) * s = (k : ℚ) →
        (mkScaledDims (some (2 * s))).cardWidth
            = 2 * (mkScaledDims (some s)).cardWidth ∧
        (mkScaledDims (some (2 * s))).cardHeight
            = 2 * (mkScaledDims (some s)).cardHeight)) ∧
    mkScaledDims none = mkScaledDims (some 2) ∧
    (∀ t : ℚ, t ≤ 0 → mkScaledDims (some t) = mkScaledDims (some 2)) := by
  have hpos : ∀ s : ℚ, 0 < s → coerceScale (some s) = s := by
    intro s hs
    simp [coerceScale, not_le.mpr hs]
  refine ⟨?_, ?_, ?_⟩
  · intro s hs
    refine ⟨by simp [mkScaledDims, scaleDim, hpos s hs], ?_⟩
    intro k hk
    have h2s : coerceScale (some (2 * s)) = 2 * s := hpos _ (by linarith)
    have hw1 : (800 : ℚ) * s = ((2 * k : ℤ) : ℚ) := by push_cast; linarith
    have hw2 : (800 : ℚ) * (2 * s) = ((4 * k : ℤ) : ℚ) := by push_cast; linarith
    have hh2 : (400 : ℚ) * (2 * s) = ((2 * k : ℤ) : ℚ) := by push_cast; linarith
    constructor
    · show scaleDim (coerceScale (some (2 * s))) 800
          = 2 * scaleDim (coerceScale (some s)) 800
      rw [h2s, hpos s hs, scaleDim, scaleDim, hw1, hw2,
        pyRound_intCast, pyRound_intCast]
      ring
    · show scaleDim (coerceScale (some (2 * s))) 400
          = 2 * scaleDim (coerceScale (some s)) 400
      rw [h2s, hpos s hs, scaleDim, scaleDim, hk, hh2,
        pyRound_intCast, pyRound_intCast]
  · have : coerceScale none = coerceScale (some 2) := by
      norm_num [coerceScale]
    simp [mkScaledDims, this]
  · intro t ht
    have : coerceScale (some t) = coerceScale (some 2) := by
      norm_num [coerceScale, ht]
    simp [mkScaledDims, this]

/-- C4 witness: the amended claim evaluated at scale 2. -/
theorem scaler_dimensions_spec_witness :
    (mkScaledDims (some 2) =
      ⟨pyRound (800 * 2), pyRound (400 * 2), pyRound (30 * 2),
       pyRound (20 * 2), pyRound (55 * 2), pyRound (5 * 2),
       pyRound (320 * 2), pyRound (11 * 2), pyRound (201 * 2)⟩) ∧
    (mkScaledDims (some (2 * 2))).cardWidth
        = 2 * (mkScaledDims (some 2)).cardWidth ∧
    mkScaledDims none = mkScaledDims (some 2) :=
  ⟨(scaler_dimensions_spec.1 2 (by norm_num)).1,
   ((scaler_dimensions_spec.1 2 (by norm_num)).2 800 (by norm_num)).1,
   scaler_dimensions_spec.2.1⟩

/-- C4 counterexample: at the positive scale 1/1600, doubling the scale does
not double the card width (round-half-to-even sends 0.5 to 0 but 1.0 to 1). -/
theorem scaler_doubling_counterexample :
    (0 : ℚ) < 1/1600 ∧
    (mkScaledDims (some (1/1600))).cardWidth = 0 ∧
    (mkScaledDims (some (2 * (1/1600)))).cardWidth = 1 ∧
    (mkScaledDims (some (2 * (1/1600)))).cardWidth
      ≠ 2 * (mkScaledDims (some (1/1600))).cardWidth := by
  have hc1 : coerceScale (some ((1:ℚ)/1600)) = 1/1600 := by
    norm_num [coerceScale]
  have hc2 : coerceScale (some (2 * ((1:ℚ)/1600))) = 2 * (1/1600) := by
    norm_num [coerceScale]
  have h1 : (mkScaledDims (some ((1:ℚ)/1600))).cardWidth = 0 := by
    show scaleDim (coerceScale (some ((1:ℚ)/1600))) 800 = 0
    rw [hc1, scaleDim]
    exact pyRound_eval_half_even _ 0 (by norm_num) rfl
  have h2 : (mkScaledDims (some (2 * ((1:ℚ)/1600)))).cardWidth = 1 := by
    show scaleDim (coerceScale (some (2 * ((1:ℚ)/1600)))) 800 = 1
    rw [hc2, scaleDim]
    have : (800 : ℚ) * (2 * (1/1600)) = ((1 : ℤ) : ℚ) := by norm_num
    rw [this, pyRound_intCast]
  exact ⟨by norm_num, h1, h2, by rw [h1, h2]; norm_num⟩

/-! ## Theorems about `get_language_color` (claims C10, C2) -/

/-- C10: `get_language_color` is total and deterministic — for every language
string and every fallback index (including indices of 10 or more) it returns a
color drawn from the fixed table or the fallback palette, the fallback palette
is indexed modulo its length 10 (so the index is always in range), and the
result only depends on the index modulo 10. -/
theorem get_language_color_total (language : String) (idx : ℕ) :
    (get_language_color language idx ∈ GITHUB_LANGUAGE_COLORS.map Prod.snd ∨
      get_language_color language idx ∈ FALLBACK_LANGUAGE_COLORS) ∧
    get_language_color language idx = get_language_color language (idx % 10) ∧
    idx % FALLBACK_LANGUAGE_COLORS.length < FALLBACK_LANGUAGE_COLORS.length := by
  have hlen : FALLBACK_LANGUAGE_COLORS.length = 10 := rfl
  have hmem : ∀ i, i < 10 →
      FALLBACK_LANGUAGE_COLORS.getD i "" ∈ FALLBACK_LANGUAGE_COLORS := by
    decide
  have hidx : idx % FALLBACK_LANGUAGE_COLORS.length
      < FALLBACK_LANGUAGE_COLORS.length := by
    rw [hlen]
    exact Nat.mod_lt _ (by norm_num)
  refine ⟨?_, ?_, hidx⟩
  · unfold get_language_color
    cases hl : GITHUB_LANGUAGE_COLORS.lookup language with
    | some c =>
      obtain ⟨l₁, l₂, hsp, -⟩ := List.lookup_eq_some_iff.mp hl
      show c ∈ List.map Prod.snd GITHUB_LANGUAGE_COLORS ∨ _
      refine Or.inl (List.mem_map.mpr ⟨(language, c), ?_, rfl⟩)
      rw [hsp]
      exact List.mem_append_right _ (List.mem_cons_self _ _)
    | none =>
      cases hf : GITHUB_LANGUAGE_COLORS.find?
          (fun p => lowerString p.1 == lowerString language) with
      | some p =>
        simp only [hf]
        exact Or.inl
          (List.mem_map_of_mem Prod.snd (List.mem_of_find?_eq_some hf))
      | none =>
        simp only [hf]
        exact Or.inr (hmem _ (by rw [hlen]; exact Nat.mod_lt _ (by norm_num)))
  · unfold get_language_color
    cases hl : GITHUB_LANGUAGE_COLORS.lookup language with
    | some c => rfl
    | none =>
      cases hf : GITHUB_LANGUAGE_COLORS.find?
          (fun p => lowerString p.1 == lowerString language) with
      | some p => simp only [hf]
      | none =>
        simp only [hf]
        have hmm : idx % 10 % 10 = idx % 10 := Nat.mod_mod_of_dvd idx dvd_rfl
        rw [hlen, hmm]

/-- Translation of a Python `for i, x in enumerate(l)` loop body that builds a
list: map with an explicit running index. -/
def mapWithIndex {α β : Type} (f : ℕ → α → β) : List α → ℕ → List β
  | [], _ => []
  | x :: xs, i => f i x :: mapWithIndex f xs (i + 1)

theorem mapWithIndex_get? {α β : Type} (f : ℕ → α → β) :
    ∀ (l : List α) (i k : ℕ),
      (mapWithIndex f l k).get? i = (l.get? i).map (f (k + i))
  | [], i, k => by simp [mapWithIndex]
  | x :: xs, 0, k => by simp [mapWithIndex]
  | x :: xs, i + 1, k => by
    show (mapWithIndex f xs (k + 1)).get? i = (xs.get? i).map (f (k + (i + 1)))
    rw [mapWithIndex_get? f xs i (k + 1)]
    have harith : k + 1 + i = k + (i + 1) := by omega
    rw [harith]

theorem mapWithIndex_length {α β : Type} (f : ℕ → α → β) :
    ∀ (l : List α) (k : ℕ), (mapWithIndex f l k).length = l.length
  | [], _ => rfl
  | x :: xs, k => by
    simp [mapWithIndex, mapWithIndex_length f xs (k + 1)]

/-- The color assigned to each visible language entry by the renderer
(`_draw_vertical_language_legend` and the bar builder): entry `i` of the
visible list gets `get_language_color(lang, i)` with `i` its `enumerate`
index. -/
def legendColors (languages : List (String × ℚ)) : List String :=
  mapWithIndex (fun i e => get_language_color e.1 i) (languages.take 5) 0

/-- The table-match portion of `get_language_color` (exact match, else
case-insensitive match), used to express which entries require fallback. -/
def tableColor (language : String) : Option String :=
  match GITHUB_LANGUAGE_COLORS.lookup language with
  | some color => some color
  | none =>
    let language_lower := lowerString language
    (GITHUB_LANGUAGE_COLORS.find?
      (fun p => lowerString p.1 == language_lower)).map Prod.snd

/-- The color assignment exactly as the spec words it (refinement target, not
drawn from the source): the fallback palette is indexed by the entry's
position among the entries that required fallback. -/
def specLegendColorsAux : List (String × ℚ) → ℕ → List String
  | [], _ => []
  | (lang, _) :: rest, fb =>
    match tableColor lang with
    | some c => c :: specLegendColorsAux rest fb
    | none =>
      FALLBACK_LANGUAGE_COLORS.getD (fb % FALLBACK_LANGUAGE_COLORS.length) ""
        :: specLegendColorsAux rest (fb + 1)

/-- Spec-worded color assignment for the visible languages. -/
def specLegendColors (languages : List (String × ℚ)) : List String :=
  specLegendColorsAux (languages.take 5) 0

/-- C2 counterexample: with a matched entry ("Python") ahead of an unmatched
one ("Zzz"), the code indexes the fallback palette by the entry's overall
position (index 1 → "#98c379"), not by its position among fallback-requiring
entries (index 0 → "#e06c75") as the claim states. -/
theorem language_color_indexing_counterexample :
    legendColors [("Python", 60), ("Zzz", 40)] = ["#3572A5", "#98c379"] ∧
    specLegendColors [("Python", 60), ("Zzz", 40)] = ["#3572A5", "#e06c75"] ∧
    legendColors [("Python", 60), ("Zzz", 40)]
      ≠ specLegendColors [("Python", 60), ("Zzz", 40)] := by
  refine ⟨by decide, by decide, by decide⟩

/-- C2 (amended): each visible entry's color is computed by exact table match,
else case-insensitive table match, else the fallback palette indexed by the
entry's overall position in the visible list (modulo the palette length 10) —
not by its position among the entries that required fallback. -/
theorem language_color_fallback_by_position
    (languages : List (String × ℚ)) (i : ℕ) (lang : String) (pct : ℚ)
    (h : (languages.take 5).get? i = some (lang, pct)) :
    (legendColors languages).get? i = some (get_language_color lang i) ∧
    (tableColor lang = none →
      get_language_color lang i =
        FALLBACK_LANGUAGE_COLORS.getD
          (i % FALLBACK_LANGUAGE_COLORS.length) "") ∧
    (∀ c, GITHUB_LANGUAGE_COLORS.lookup lang = some c →
      get_language_color lang i = c) := by
  refine ⟨?_, ?_, ?_⟩
  · rw [legendColors,
      mapWithIndex_get? (fun i e => get_language_color e.1 i)
        (languages.take 5) i 0, h]
    simp
  · intro ht
    unfold tableColor at ht
    unfold get_language_color
    cases hl : GITHUB_LANGUAGE_COLORS.lookup lang with
    | some c => rw [hl] at ht; simp at ht
    | none =>
      rw [hl] at ht
      cases hf : GITHUB_LANGUAGE_COLORS.find?
          (fun p => lowerString p.1 == lowerString lang) with
      | some p => simp [hf] at ht
      | none => simp only [hf]
  · intro c hc
    unfold get_language_color
    rw [hc]

/-- C2 witness: the amended claim evaluated for an unmatched name at
position 0 of the visible list. -/
theorem language_color_fallback_by_position_witness :
    (legendColors [("Zzz", 40)]).get? 0 = some (get_language_color "Zzz" 0) ∧
    (tableColor "Zzz" = none →
      get_language_color "Zzz" 0 =
        FALLBACK_LANGUAGE_COLORS.getD
          (0 % FALLBACK_LANGUAGE_COLORS.length) "") ∧
    (∀ c, GITHUB_LANGUAGE_COLORS.lookup "Zzz" = some c →
      get_language_color "Zzz" 0 = c) :=
  language_color_fallback_by_position [("Zzz", 40)] 0 "Zzz" 40 rfl

/-! ## Language filtering and the stats-section language guard
(`_normalize_language_name`, `_filter_languages`, `_draw_stats_section`) -/

/-- `_normalize_language_name`: trim whitespace and casefold. -/
def normalize_language_name (name : String) : String :=
  lowerString (trimString name)

/-- `_filter_languages`: drop languages whose normalized name is in the
normalized excluded set; an empty normalized set is a no-op. -/
def filter_languages (languages : List (String × ℚ)) (excluded : List String) :
    List (String × ℚ) :=
  let excluded_set := (excluded.filter (fun x => x ≠ "")).map
    normalize_language_name
  if excluded_set = [] then languages
  else languages.filter
    (fun e => ¬ (normalize_language_name e.1 ∈ excluded_set))

/-- The language list `_draw_stats_section` works with: filtering is applied
only when the excluded list is non-empty (Python truthiness of the list). -/
def sectionLanguages (languages : List (String × ℚ))
    (excluded : List String) : List (String × ℚ) :=
  if excluded = [] then languages else filter_languages languages excluded

/-! ## Language bar segments (`_draw_vertical_language_bar`, lines 867-909) -/

/-- One stacked-bar segment: start row (inclusive), end row (exclusive), and
fill color, as accumulated in the `segments` list. -/
structure BarSegment where
  start : ℕ
  stop : ℕ
  color : Rgba
deriving DecidableEq

/-- Height in pixels of one segment. -/
def segHeight (s : BarSegment) : ℕ := s.stop - s.start

/-- The segment-construction loop of `_draw_vertical_language_bar`: the
`enumerate` index `i` and the accumulated `current_y` are threaded through;
proportional mode truncates `(percentage / total) * h` with Python `int()`,
equal mode gives `h // num` to all but the last entry, which absorbs the
remainder `h - current_y`; any segment whose computed height is below 1 pixel
is skipped without advancing `current_y`. -/
def buildSegmentsAux (scale_bars : Bool) (total : ℚ) (h num : ℕ) :
    List (String × ℚ) → ℕ → ℕ → List BarSegment
  | [], _, _ => []
  | (lang, pct) :: rest, i, current_y =>
    let segment_height : ℤ :=
      if scale_bars then ratTrunc ((pct / total) * h)
      else if i = num - 1 then (h : ℤ) - current_y else ((h / num : ℕ) : ℤ)
    if segment_height < 1 then
      buildSegmentsAux scale_bars total h num rest (i + 1) current_y
    else
      ⟨current_y, current_y + segment_height.toNat,
        hex_to_rgba (get_language_color lang i) 255⟩
        :: buildSegmentsAux scale_bars total h num rest (i + 1)
            (current_y + segment_height.toNat)

/-- Segment list built for the visible languages (total percentage and entry
count computed as in the source). -/
def buildSegments (scale_bars : Bool) (visible : List (String × ℚ))
    (h : ℕ) : List BarSegment :=
  buildSegmentsAux scale_bars ((visible.map Prod.snd).sum) h
    visible.length visible 0 0

/-- `_draw_vertical_language_bar` viewed as the bar fill it draws: `none`
when it returns before drawing any fill (no visible languages, zero
percentage total, or no segment at least one pixel tall). -/
def draw_vertical_language_bar (languages : List (String × ℚ)) (h : ℕ)
    (scale_bars : Bool) : Option (List BarSegment) :=
  let visible := languages.take 5
  if visible = [] then none
  else if (visible.map Prod.snd).sum = 0 then none
  else
    let segments := buildSegments scale_bars visible h
    if segments = [] then none else some segments

/-- In proportional mode the heights of the built segments are exactly the
truncated proportional heights of the entries, with sub-pixel entries
filtered out; the heights do not depend on the running index or offset. -/
theorem buildSegmentsAux_prop_heights (total : ℚ) (h num : ℕ) :
    ∀ (l : List (String × ℚ)) (i c : ℕ),
      (buildSegmentsAux true total h num l i c).map segHeight
        = ((l.map (fun e => ratTrunc (e.2 / total * h))).filter
            (fun z => decide (1 ≤ z))).map Int.toNat
  | [], _, _ => rfl
  | (lang, pct) :: rest, i, c => by
    by_cases hlt : ratTrunc (pct / total * h) < 1
    · have hpred : (decide (1 ≤ ratTrunc (pct / total * h))) = false := by
        simpa using hlt
      simp only [buildSegmentsAux, if_true, if_pos hlt, List.map_cons,
        List.filter_cons, hpred, Bool.false_eq_true, if_false]
      exact buildSegmentsAux_prop_heights total h num rest (i + 1) c
    · have hpred : (decide (1 ≤ ratTrunc (pct / total * h))) = true := by
        simpa using hlt
      simp only [buildSegmentsAux, if_true, if_neg hlt, List.map_cons,
        List.filter_cons, hpred, if_true]
      rw [buildSegmentsAux_prop_heights total h num rest (i + 1)
        (c + (ratTrunc (pct / total * h)).toNat)]
      simp [segHeight]

/-- Unfolding equation for one step of the segment-construction loop. -/
theorem buildSegmentsAux_cons (scale_bars : Bool) (total : ℚ) (h num : ℕ)
    (lang : String) (pct : ℚ) (rest : List (String × ℚ)) (i c : ℕ) :
    buildSegmentsAux scale_bars total h num ((lang, pct) :: rest) i c =
      (if (if scale_bars then ratTrunc ((pct / total) * h)
           else if i = num - 1 then (h : ℤ) - c else ((h / num : ℕ) : ℤ)) < 1
       then buildSegmentsAux scale_bars total h num rest (i + 1) c
       else
        ⟨c, c + (if scale_bars then ratTrunc ((pct / total) * h)
                 else if i = num - 1 then (h : ℤ) - c
                 else ((h / num : ℕ) : ℤ)).toNat,
          hex_to_rgba (get_language_color lang i) 255⟩
          :: buildSegmentsAux scale_bars total h num rest (i + 1)
              (c + (if scale_bars then ratTrunc ((pct / total) * h)
                    else if i = num - 1 then (h : ℤ) - c
                    else ((h / num : ℕ) : ℤ)).toNat)) := rfl

/-- In equal mode, starting at index `i` with `current_y = i * (h / num)`,
the heights of the built segments are `h / num` for all but the last entry
and `h - (num - 1) * (h / num)` for the last, zero heights filtered out. -/
theorem buildSegmentsAux_equal_heights (total : ℚ) (h num : ℕ) :
    ∀ (l : List (String × ℚ)) (i : ℕ), l ≠ [] → i + l.length = num →
      (buildSegmentsAux false total h num l i (i * (h / num))).map segHeight
        = (List.replicate (l.length - 1) (h / num)
            ++ [h - (num - 1) * (h / num)]).filter (fun z => decide (1 ≤ z))
  | [], _, hne, _ => absurd rfl hne
  | [(lang, pct)], i, _, hlen => by
    simp only [List.length_cons, List.length_nil] at hlen
    have hi : i = num - 1 := by omega
    subst hi
    have hc : (num - 1) * (h / num) ≤ h := by
      calc (num - 1) * (h / num) ≤ num * (h / num) :=
            Nat.mul_le_mul_right _ (by omega)
        _ ≤ h := by rw [mul_comm]; exact Nat.div_mul_le_self h num
    rw [buildSegmentsAux_cons]
    simp only [Bool.false_eq_true, if_false, eq_self_iff_true, if_true]
    by_cases hz : (h : ℤ) - ((num - 1) * (h / num) : ℕ) < 1
    · rw [if_pos hz]
      have hz' : h - (num - 1) * (h / num) = 0 := by omega
      simp [buildSegmentsAux, hz']
    · rw [if_neg hz]
      have hz1 : 1 ≤ h - (num - 1) * (h / num) := by omega
      have hpred : (decide (1 ≤ h - (num - 1) * (h / num))) = true := by
        simp [hz1]
      simp only [List.map_cons, buildSegmentsAux, List.map_nil,
        List.length_cons, List.length_nil, Nat.zero_add, Nat.sub_self,
        List.replicate_zero, List.nil_append, List.filter_cons, hpred,
        if_true, List.filter_nil]
      congr 1
      simp only [segHeight]
      omega
  | (lang, pct) :: y :: rest, i, _, hlen => by
    simp only [List.length_cons] at hlen
    have hne2 : y :: rest ≠ [] := by simp
    have hlen2 : (i + 1) + (y :: rest).length = num := by
      simp only [List.length_cons]
      omega
    have hi : i ≠ num - 1 := by omega
    have ih := buildSegmentsAux_equal_heights total h num (y :: rest)
      (i + 1) hne2 hlen2
    rw [buildSegmentsAux_cons]
    simp only [Bool.false_eq_true, if_false, if_neg hi]
    by_cases hq0 : h / num = 0
    · have hq : ((h / num : ℕ) : ℤ) < 1 := by
        simp [hq0]
      rw [if_pos hq]
      have hca : i * (h / num) = (i + 1) * (h / num) := by rw [hq0]; ring
      rw [hca, ih]
      have hrep : ((lang, pct) :: y :: rest).length - 1
          = ((y :: rest).length - 1) + 1 := by
        simp only [List.length_cons]
        omega
      rw [hrep, List.replicate_succ, List.cons_append, List.filter_cons]
      simp [hq0]
    · have hq1 : 1 ≤ h / num := Nat.one_le_iff_ne_zero.mpr hq0
      have hq : ¬ ((h / num : ℕ) : ℤ) < 1 := by
        push_neg
        exact_mod_cast hq1
      rw [if_neg hq]
      have hpred : (decide (1 ≤ h / num)) = true := by simp [hq1]
      simp only [List.map_cons]
      have htn : (((h / num : ℕ) : ℤ)).toNat = h / num := Int.toNat_natCast _
      have hca : i * (h / num) + (((h / num : ℕ) : ℤ)).toNat
          = (i + 1) * (h / num) := by rw [htn]; ring
      rw [hca, ih]
      have hrep : ((lang, pct) :: y :: rest).length - 1
          = ((y :: rest).length - 1) + 1 := by
        simp only [List.length_cons]
        omega
      rw [hrep, List.replicate_succ, List.cons_append, List.filter_cons,
        hpred]
      simp only [if_true, List.cons.injEq]
      refine ⟨?_, trivial⟩
      simp [segHeight, htn, Nat.succ_mul]

/-- Dropping the zero entries of a list of naturals preserves its sum. -/
theorem sum_filter_one_le (l : List ℕ) :
    (l.filter (fun z => decide (1 ≤ z))).sum = l.sum := by
  induction l with
  | nil => rfl
  | cons x xs ih =>
    by_cases hx : 1 ≤ x
    · rw [List.filter_cons_of_pos (by simpa using hx), List.sum_cons,
        List.sum_cons, ih]
    · have hx0 : x = 0 := by omega
      rw [List.filter_cons_of_neg (by simpa using hx), List.sum_cons, ih,
        hx0, Nat.zero_add]

/-- C3: in equal mode every entry gets height `bar_height // count` except
the last, which absorbs the remainder `bar_height - current_y`, and the
computed segment heights sum to exactly `bar_height` for any visible language
count from 1 to 5. -/
theorem equal_mode_segment_sum (visible : List (String × ℚ)) (h : ℕ)
    (h1 : 1 ≤ visible.length) (h5 : visible.length ≤ 5) :
    (buildSegments false visible h).map segHeight
      = (List.replicate (visible.length - 1) (h / visible.length)
          ++ [h - (visible.length - 1) * (h / visible.length)]).filter
          (fun z => decide (1 ≤ z)) ∧
    ((buildSegments false visible h).map segHeight).sum = h := by
  have hne : visible ≠ [] := by
    intro hv
    rw [hv] at h1
    simp at h1
  have hchar := buildSegmentsAux_equal_heights
    ((visible.map Prod.snd).sum) h visible.length visible 0 hne
    (by omega)
  rw [Nat.zero_mul] at hchar
  have hc : (visible.length - 1) * (h / visible.length) ≤ h := by
    calc (visible.length - 1) * (h / visible.length)
        ≤ visible.length * (h / visible.length) :=
          Nat.mul_le_mul_right _ (by omega)
      _ ≤ h := by
          rw [mul_comm]
          exact Nat.div_mul_le_self h visible.length
  have hbs : buildSegments false visible h
      = buildSegmentsAux false ((visible.map Prod.snd).sum) h visible.length
          visible 0 0 := rfl
  refine ⟨by rw [hbs]; exact hchar, ?_⟩
  rw [hbs, hchar, sum_filter_one_le, List.sum_append, List.sum_replicate,
    List.sum_cons, List.sum_nil, smul_eq_mul]
  omega

/-- C3 witness: equal mode with three languages and bar height 10. -/
theorem equal_mode_segment_sum_witness :
    (buildSegments false [("Python", 60), ("Go", 30), ("Zzz", 10)] 10).map
        segHeight
      = (List.replicate
            (([("Python", (60:ℚ)), ("Go", 30), ("Zzz", 10)]).length - 1)
            (10 / ([("Python", (60:ℚ)), ("Go", 30), ("Zzz", 10)]).length)
          ++ [10 - (([("Python", (60:ℚ)), ("Go", 30), ("Zzz", 10)]).length - 1)
              * (10 / ([("Python", (60:ℚ)), ("Go", 30), ("Zzz", 10)]).length)]).filter
          (fun z => decide (1 ≤ z)) ∧
    ((buildSegments false [("Python", 60), ("Go", 30), ("Zzz", 10)] 10).map
        segHeight).sum = 10 :=
  equal_mode_segment_sum [("Python", 60), ("Go", 30), ("Zzz", 10)] 10
    (by simp) (by simp)

/-- C1 (amended): in proportional mode with non-negative percentages summing
to a positive value, each drawn segment's pixel height equals the Python
`int()` truncation `int(percentage / sum * bar_height)` — not the rounding
`round(...)` — segments whose height comes out below 1 pixel are omitted from
drawing, no drawn segment's height exceeds `bar_height`, and the bar drawing
routine draws exactly these segments (or nothing when none survives). -/
theorem proportional_segment_heights (languages : List (String × ℚ)) (h : ℕ)
    (hnn : ∀ e ∈ languages.take 5, 0 ≤ e.2)
    (hpos : 0 < ((languages.take 5).map Prod.snd).sum) :
    (buildSegments true (languages.take 5) h).map segHeight
      = (((languages.take 5).map (fun e =>
            ratTrunc (e.2 / ((languages.take 5).map Prod.snd).sum * h))).filter
          (fun z => decide (1 ≤ z))).map Int.toNat ∧
    (∀ s ∈ buildSegments true (languages.take 5) h, segHeight s ≤ h) ∧
    draw_vertical_language_bar languages h true
      = (if buildSegments true (languages.take 5) h = [] then none
         else some (buildSegments true (languages.take 5) h)) := by
  set visible := languages.take 5 with hvis
  set total := (visible.map Prod.snd).sum with htot
  have hchar := buildSegmentsAux_prop_heights total h visible.length
    visible 0 0
  have hbs : buildSegments true visible h
      = buildSegmentsAux true total h visible.length visible 0 0 := rfl
  refine ⟨by rw [hbs]; exact hchar, ?_, ?_⟩
  · intro s hs
    have hmem : segHeight s ∈ (buildSegments true visible h).map segHeight :=
      List.mem_map_of_mem segHeight hs
    rw [hbs, hchar] at hmem
    obtain ⟨z, hzmem, hz⟩ := List.mem_map.mp hmem
    have hzf := List.mem_of_mem_filter hzmem
    obtain ⟨e, hemem, he⟩ := List.mem_map.mp hzf
    have hple : e.2 ≤ total := by
      rw [htot]
      exact List.single_le_sum (fun x hx => by
          obtain ⟨e2, he2, hee⟩ := List.mem_map.mp hx
          rw [← hee]
          exact hnn e2 he2)
        _ (List.mem_map_of_mem Prod.snd hemem)
    have hq0 : (0 : ℚ) ≤ e.2 / total * h := by
      apply mul_nonneg
      · exact div_nonneg (hnn e hemem) (le_of_lt hpos)
      · exact_mod_cast Nat.zero_le h
    have hqh : e.2 / total * h ≤ (h : ℚ) := by
      have hdiv : e.2 / total ≤ 1 := (div_le_one hpos).mpr hple
      calc e.2 / total * h ≤ 1 * h :=
            mul_le_mul_of_nonneg_right hdiv (by exact_mod_cast Nat.zero_le h)
        _ = h := one_mul _
    have hzle : z ≤ (h : ℤ) := by
      rw [← he, ratTrunc_nonneg _ hq0]
      calc ⌊e.2 / total * h⌋ ≤ ⌊(h : ℚ)⌋ := Int.floor_le_floor hqh
        _ = (h : ℤ) := Int.floor_natCast h
    rw [← hz]
    exact Int.toNat_le.mpr hzle
  · have hvne : visible ≠ [] := by
      intro hv
      rw [htot, hv] at hpos
      simp at hpos
    have htne : total ≠ 0 := ne_of_gt hpos
    show (if visible = [] then none
      else if (visible.map Prod.snd).sum = 0 then none
      else if buildSegments true visible h = [] then none
        else some (buildSegments true visible h)) = _
    rw [if_neg hvne, if_neg (htot ▸ htne)]

/-- C1 counterexample: with percentages 2 and 1 and bar height 100, the first
drawn segment's height is `int(2/3 * 100) = 66`, while the claimed
`round(2/3 * 100)` is 67. -/
theorem proportional_round_counterexample :
    (buildSegments true [("Foo", 2), ("Bar", 1)] 100).map segHeight
      = [66, 33] ∧
    pyRound (2 / ((2 : ℚ) + 1) * 100) = 67 ∧
    (66 : ℕ) ≠ 67 := by
  have hsum : (([("Foo", (2:ℚ)), ("Bar", 1)].map Prod.snd)).sum = 3 := by
    simp
    norm_num
  have ht1 : ratTrunc ((2 : ℚ) / 3 * ((100 : ℕ) : ℚ)) = 66 :=
    ratTrunc_eval _ 66 (by norm_num) (by norm_num) (by norm_num)
  have ht2 : ratTrunc ((1 : ℚ) / 3 * ((100 : ℕ) : ℚ)) = 33 :=
    ratTrunc_eval _ 33 (by norm_num) (by norm_num) (by norm_num)
  refine ⟨?_, ?_, by norm_num⟩
  · have hbs : buildSegments true [("Foo", 2), ("Bar", 1)] 100
        = buildSegmentsAux true
            (([("Foo", (2:ℚ)), ("Bar", 1)].map Prod.snd)).sum 100 2
            [("Foo", 2), ("Bar", 1)] 0 0 := rfl
    rw [hbs, hsum,
      buildSegmentsAux_prop_heights 3 100 2 [("Foo", 2), ("Bar", 1)] 0 0]
    simp only [List.map_cons, List.map_nil]
    rw [ht1, ht2]
    decide
  · have harg : (2 : ℚ) / (2 + 1) * 100 = 200 / 3 := by norm_num
    rw [harg]
    exact pyRound_eval_gt _ 66 (by norm_num) (by norm_num)

/-- C1 witness: the amended claim at percentages 2, 1 and bar height 100. -/
theorem proportional_segment_heights_witness :
    (buildSegments true ([("Foo", 2), ("Bar", 1)].take 5) 100).map segHeight
      = ((([("Foo", (2:ℚ)), ("Bar", 1)].take 5).map (fun e =>
            ratTrunc (e.2 / (([("Foo", (2:ℚ)), ("Bar", 1)].take 5).map
              Prod.snd).sum * 100))).filter
          (fun z => decide (1 ≤ z))).map Int.toNat ∧
    (∀ s ∈ buildSegments true ([("Foo", 2), ("Bar", 1)].take 5) 100,
      segHeight s ≤ 100) ∧
    draw_vertical_language_bar [("Foo", 2), ("Bar", 1)] 100 true
      = (if buildSegments true ([("Foo", 2), ("Bar", 1)].take 5) 100 = []
         then none
         else some (buildSegments true ([("Foo", 2), ("Bar", 1)].take 5) 100)) :=
  proportional_segment_heights [("Foo", 2), ("Bar", 1)] 100
    (by
      intro e he
      simp only [List.take, List.mem_cons, List.not_mem_nil, or_false] at he
      rcases he with rfl | rfl <;> norm_num)
    (by
      simp
      norm_num)

/-- The languages part of `_draw_stats_section`: with the (conditionally)
filtered language list, the label, bar and legend are drawn only when that
list is non-empty; the value carries the list used for label/legend and the
bar fill that `_draw_vertical_language_bar` produces. -/
def statsSectionLangPlan (languages : List (String × ℚ))
    (excluded : List String) (h : ℕ) (scale_bars : Bool) :
    Option (List (String × ℚ) × Option (List BarSegment)) :=
  let ls := sectionLanguages languages excluded
  if ls = [] then none
  else some (ls, draw_vertical_language_bar ls h scale_bars)

/-- C8: if zero languages remain after exclusion filtering, the languages
label, bar and legend are all skipped (the section draws nothing and no
error can arise); and if the visible languages' percentages sum to zero, the
bar fill is skipped before any division is attempted. -/
theorem empty_or_zero_languages_skip :
    (∀ (languages : List (String × ℚ)) (excluded : List String)
        (h : ℕ) (scale_bars : Bool),
      sectionLanguages languages excluded = [] →
      statsSectionLangPlan languages excluded h scale_bars = none) ∧
    (∀ (languages : List (String × ℚ)) (h : ℕ) (scale_bars : Bool),
      ((languages.take 5).map Prod.snd).sum = 0 →
      draw_vertical_language_bar languages h scale_bars = none) := by
  constructor
  · intro languages excluded h scale_bars hempty
    show (if sectionLanguages languages excluded = [] then none else _) = none
    rw [if_pos hempty]
  · intro languages h scale_bars hzero
    show (if languages.take 5 = [] then none
      else if ((languages.take 5).map Prod.snd).sum = 0 then none
      else _) = none
    by_cases hv : languages.take 5 = []
    · rw [if_pos hv]
    · rw [if_neg hv, if_pos hzero]

/-- C8 witness: a fully-excluded list draws nothing, and a zero-sum visible
list draws no bar fill. -/
theorem empty_or_zero_languages_skip_witness :
    statsSectionLangPlan [("Python", 50)] ["python"] 164 true = none ∧
    draw_vertical_language_bar [("Zzz", 0)] 164 true = none :=
  ⟨empty_or_zero_languages_skip.1 [("Python", 50)] ["python"] 164 true
      (by decide),
   empty_or_zero_languages_skip.2 [("Zzz", 0)] 164 true (by simp)⟩

/-! ## Greedy text wrapping (`_wrap_text_to_width`, lines 446-480)

Lines are represented as lists of words (a committed line is the
space-joined list); `ww` gives the rendered width of such a joined line, an
environment parameter determined by the font metrics. -/

/-- One iteration of the greedy-wrap loop: try to extend the current line
with the next word; on overflow commit the current line (or, when the
current line is empty, place the overlong word alone). -/
def wrapGreedyStep (ww : List String → ℕ) (M : ℕ)
    (acc : List (List String) × List String) (w : String) :
    List (List String) × List String :=
  let candidate := acc.2 ++ [w]
  if ww candidate ≤ M then (acc.1, candidate)
  else if acc.2 ≠ [] then (acc.1 ++ [acc.2], [w])
  else (acc.1 ++ [[w]], [])

/-- `_wrap_text_to_width`: fold the greedy step over the words of the text
and commit the trailing current line if non-empty. -/
def wrap_text_to_width (ww : List String → ℕ) (M : ℕ)
    (words : List String) : List (List String) :=
  let r := words.foldl (wrapGreedyStep ww M) ([], [])
  if r.2 ≠ [] then r.1 ++ [r.2] else r.1

/-- An acceptable output line: it fits the width budget, or it is a single
word that is itself wider than the budget (placed alone, never broken). -/
def lineOk (ww : List String → ℕ) (M : ℕ) (line : List String) : Prop :=
  ww line ≤ M ∨ ∃ w, line = [w] ∧ M < ww [w]

/-- An acceptable in-progress line: empty, fitting, or a single word. -/
def curOk (ww : List String → ℕ) (M : ℕ) (cur : List String) : Prop :=
  cur = [] ∨ ww cur ≤ M ∨ ∃ w, cur = [w]

theorem curOk_lineOk (ww : List String → ℕ) (M : ℕ) (cur : List String)
    (hc : curOk ww M cur) (hne : cur ≠ []) : lineOk ww M cur := by
  rcases hc with h | h | ⟨w, hw⟩
  · exact absurd h hne
  · exact Or.inl h
  · by_cases hwle : ww cur ≤ M
    · exact Or.inl hwle
    · exact Or.inr ⟨w, hw, by rw [← hw]; omega⟩

/-- Invariant of the greedy fold: the committed lines followed by the
current line spell out exactly the words processed so far, every committed
line is acceptable, and the current line is an acceptable prefix. -/
theorem wrapGreedy_fold_spec (ww : List String → ℕ) (M : ℕ) :
    ∀ (words : List String) (lines : List (List String)) (cur : List String),
      (∀ l ∈ lines, lineOk ww M l) → curOk ww M cur →
      ((words.foldl (wrapGreedyStep ww M) (lines, cur)).1.flatten
          ++ (words.foldl (wrapGreedyStep ww M) (lines, cur)).2
        = lines.flatten ++ cur ++ words) ∧
      (∀ l ∈ (words.foldl (wrapGreedyStep ww M) (lines, cur)).1,
        lineOk ww M l) ∧
      curOk ww M (words.foldl (wrapGreedyStep ww M) (lines, cur)).2
  | [], lines, cur, hlines, hcur => by
    simp only [List.foldl_nil]
    exact ⟨by simp, hlines, hcur⟩
  | w :: ws, lines, cur, hlines, hcur => by
    rw [List.foldl_cons]
    by_cases hfit : ww (cur ++ [w]) ≤ M
    · have hstep : wrapGreedyStep ww M (lines, cur) w = (lines, cur ++ [w]) := by
        simp [wrapGreedyStep, hfit]
      rw [hstep]
      obtain ⟨hj, hl, hc⟩ := wrapGreedy_fold_spec ww M ws lines (cur ++ [w])
        hlines (Or.inr (Or.inl hfit))
      refine ⟨?_, hl, hc⟩
      rw [hj]
      simp
    · by_cases hne : cur ≠ []
      · have hstep : wrapGreedyStep ww M (lines, cur) w
            = (lines ++ [cur], [w]) := by
          simp [wrapGreedyStep, hfit, hne]
        rw [hstep]
        have hlines2 : ∀ l ∈ lines ++ [cur], lineOk ww M l := by
          intro l hl
          rcases List.mem_append.mp hl with h | h
          · exact hlines l h
          · rw [List.mem_singleton.mp h]
            exact curOk_lineOk ww M cur hcur hne
        obtain ⟨hj, hl, hc⟩ := wrapGreedy_fold_spec ww M ws (lines ++ [cur])
          [w] hlines2 (Or.inr (Or.inr ⟨w, rfl⟩))
        refine ⟨?_, hl, hc⟩
        rw [hj]
        simp
      · push_neg at hne
        subst hne
        have hfit2 : ¬ ww [w] ≤ M := by simpa using hfit
        have hstep : wrapGreedyStep ww M (lines, []) w
            = (lines ++ [[w]], []) := by
          simp [wrapGreedyStep, hfit2]
        rw [hstep]
        have hwbig : M < ww [w] := by
          simp only [List.nil_append] at hfit
          omega
        have hlines2 : ∀ l ∈ lines ++ [[w]], lineOk ww M l := by
          intro l hl
          rcases List.mem_append.mp hl with h | h
          · exact hlines l h
          · rw [List.mem_singleton.mp h]
            exact Or.inr ⟨w, rfl, hwbig⟩
        obtain ⟨hj, hl, hc⟩ := wrapGreedy_fold_spec ww M ws (lines ++ [[w]])
          [] hlines2 (Or.inl rfl)
        refine ⟨?_, hl, hc⟩
        rw [hj]
        simp

/-- C6: greedy wrap reconstructs the original word sequence when its lines
are rejoined, and every produced line fits within the width budget except a
line consisting of a single word that is itself wider than the budget, which
is placed alone (never letter-broken). -/
theorem greedy_wrap_spec (ww : List String → ℕ) (M : ℕ)
    (words : List String) :
    (wrap_text_to_width ww M words).flatten = words ∧
    ∀ line ∈ wrap_text_to_width ww M words,
      ww line ≤ M ∨ ∃ w, line = [w] ∧ M < ww [w] := by
  obtain ⟨hj, hl, hc⟩ := wrapGreedy_fold_spec ww M words [] []
    (by intro l hl; simp at hl) (Or.inl rfl)
  simp only [List.flatten_nil, List.nil_append] at hj
  unfold wrap_text_to_width
  by_cases hne : (words.foldl (wrapGreedyStep ww M) ([], [])).2 ≠ []
  · rw [if_pos hne]
    constructor
    · rw [List.flatten_append]
      simp only [List.flatten_cons, List.flatten_nil, List.append_nil]
      exact hj
    · intro line hline
      rcases List.mem_append.mp hline with h | h
      · exact hl line h
      · rw [List.mem_singleton.mp h]
        exact curOk_lineOk ww M _ hc hne
  · rw [if_neg hne]
    push_neg at hne
    constructor
    · rw [hne, List.append_nil] at hj
      exact hj
    · exact hl

/-! ## Blurb height and auto-fit (`_calculate_blurb_height`,
`_find_optimal_blurb_font_size`, lines 592-642)

A paragraph is represented by the list of rendered heights of its wrapped
lines; the wrapping and font metrics are environment parameters, so the
height computation is parametrized by the per-size wrapped line heights. -/

/-- Per-paragraph contribution to `_calculate_blurb_height`: each wrapped
line adds its height plus the inter-line gap, and one trailing gap is
removed when the paragraph wrapped to at least one line. -/
def paraHeight (lineGap : ℤ) (hs : List ℤ) : ℤ :=
  (hs.map (fun lh => lh + lineGap)).sum - (if hs.isEmpty then 0 else lineGap)

/-- `_calculate_blurb_height`: total the paragraph heights, adding the
inter-paragraph gap after every paragraph except the last (the loop's
`idx < len(blurb_lines) - 1` test). -/
def calculate_blurb_height (lineGap paraGap : ℤ) : List (List ℤ) → ℤ
  | [] => 0
  | [hs] => paraHeight lineGap hs
  | hs :: next :: rest =>
    paraHeight lineGap hs + paraGap
      + calculate_blurb_height lineGap paraGap (next :: rest)

/-- The descending candidate base font sizes of
`_find_optimal_blurb_font_size` (`range(24, 9, -1)`). -/
def blurbFontSizes : List ℕ := (List.range 15).map (fun k => 24 - k)

/-- The scanning loop of `_find_optimal_blurb_font_size`: return the first
candidate size whose block fits, else the minimum size 10. -/
def scanFontSizes (fits : ℕ → Bool) : List ℕ → ℕ
  | [] => 10
  | s :: rest => if fits s then s else scanFontSizes fits rest

/-- `_find_optimal_blurb_font_size`, returning the chosen base size. -/
def find_optimal_blurb_font_size (paraLines : ℕ → List (List ℤ))
    (lineGap paraGap maxH : ℤ) : ℕ :=
  scanFontSizes
    (fun s => decide (calculate_blurb_height lineGap paraGap (paraLines s) ≤ maxH))
    blurbFontSizes

/-- The first fitting size of a strictly descending candidate list is the
largest fitting size; when nothing fits the scan returns 10. -/
theorem scanFontSizes_spec (fits : ℕ → Bool) :
    ∀ l : List ℕ, l.Pairwise (fun a b => b < a) →
      ((∃ s ∈ l, fits s = true) →
        fits (scanFontSizes fits l) = true ∧ scanFontSizes fits l ∈ l ∧
        ∀ s ∈ l, fits s = true → s ≤ scanFontSizes fits l) ∧
      ((∀ s ∈ l, fits s = false) → scanFontSizes fits l = 10)
  | [], _ => by
    constructor
    · rintro ⟨s, hs, -⟩
      simp at hs
    · intro
      rfl
  | s :: rest, hpw => by
    have hpw2 := (List.pairwise_cons.mp hpw).2
    have hlt := (List.pairwise_cons.mp hpw).1
    obtain ⟨ih1, ih2⟩ := scanFontSizes_spec fits rest hpw2
    by_cases hfit : fits s = true
    · constructor
      · intro
        refine ⟨?_, ?_, ?_⟩
        · show fits (if fits s then s else scanFontSizes fits rest) = true
          rw [if_pos hfit]
          exact hfit
        · show (if fits s then s else scanFontSizes fits rest) ∈ s :: rest
          rw [if_pos hfit]
          exact List.mem_cons_self s rest
        · intro t ht hft
          show t ≤ (if fits s then s else scanFontSizes fits rest)
          rw [if_pos hfit]
          rcases List.mem_cons.mp ht with rfl | hmem
          · exact le_refl t
          · exact le_of_lt (hlt t hmem)
      · intro hall
        exact absurd hfit (by simp [hall s (List.mem_cons_self s rest)])
    · have hscan : scanFontSizes fits (s :: rest) = scanFontSizes fits rest := by
        show (if fits s then s else scanFontSizes fits rest) = _
        rw [if_neg hfit]
      constructor
      · rintro ⟨t, ht, hft⟩
        rcases List.mem_cons.mp ht with rfl | hmem
        · exact absurd hft hfit
        · obtain ⟨ha, hb, hc⟩ := ih1 ⟨t, hmem, hft⟩
          rw [hscan]
          refine ⟨ha, List.mem_cons_of_mem s hb, ?_⟩
          intro u hu hfu
          rcases List.mem_cons.mp hu with rfl | humem
          · exact absurd hfu hfit
          · exact hc u humem hfu
      · intro hall
        rw [hscan]
        exact ih2 (fun t ht => hall t (List.mem_cons_of_mem s ht))

/-- C7: the blurb block height is the sum over lines of line height plus
inter-line gap, minus one trailing gap per non-empty paragraph, plus one
inter-paragraph gap between consecutive paragraphs; auto-fit scans base
sizes 24 down to 10 and selects the largest size whose block height is at
most the box height — never an overflowing size when some candidate fits —
and selects the smallest candidate size 10 when no candidate fits. -/
theorem blurb_autofit_spec (paraLines : ℕ → List (List ℤ))
    (lineGap paraGap maxH : ℤ) :
    (∀ paras : List (List ℤ),
      calculate_blurb_height lineGap paraGap paras
        = (paras.map (paraHeight lineGap)).sum
          + paraGap * ((paras.length - 1 : ℕ) : ℤ)) ∧
    ((∃ s ∈ blurbFontSizes,
        calculate_blurb_height lineGap paraGap (paraLines s) ≤ maxH) →
      calculate_blurb_height lineGap paraGap
          (paraLines (find_optimal_blurb_font_size paraLines lineGap paraGap maxH))
        ≤ maxH ∧
      find_optimal_blurb_font_size paraLines lineGap paraGap maxH
        ∈ blurbFontSizes ∧
      ∀ s ∈ blurbFontSizes,
        calculate_blurb_height lineGap paraGap (paraLines s) ≤ maxH →
        s ≤ find_optimal_blurb_font_size paraLines lineGap paraGap maxH) ∧
    ((∀ s ∈ blurbFontSizes,
        maxH < calculate_blurb_height lineGap paraGap (paraLines s)) →
      find_optimal_blurb_font_size paraLines lineGap paraGap maxH = 10) := by
  have hpw : blurbFontSizes.Pairwise (fun a b => b < a) := by decide
  have hspec := scanFontSizes_spec
    (fun s => decide (calculate_blurb_height lineGap paraGap (paraLines s) ≤ maxH))
    blurbFontSizes hpw
  refine ⟨?_, ?_, ?_⟩
  · intro paras
    induction paras with
    | nil => simp [calculate_blurb_height]
    | cons hs rest ih =>
      cases rest with
      | nil => simp [calculate_blurb_height]
      | cons next rest2 =>
        rw [calculate_blurb_height, ih]
        simp only [List.map_cons, List.sum_cons, List.length_cons]
        have h1 : (rest2.length + 1 - 1 : ℕ) = rest2.length := by omega
        have h2 : (rest2.length + 1 + 1 - 1 : ℕ) = rest2.length + 1 := by
          omega
        rw [h1, h2]
        push_cast
        ring
  · intro hex
    obtain ⟨ha, hb, hc⟩ := hspec.1 (by
      obtain ⟨s, hs, hfit⟩ := hex
      exact ⟨s, hs, by simpa using hfit⟩)
    refine ⟨by simpa using ha, hb, ?_⟩
    intro s hs hfit
    exact hc s hs (by simpa using hfit)
  · intro hall
    exact hspec.2 (fun s hs => by simp [not_le.mpr (hall s hs)])

/-- C7 witness: a blurb whose block height equals the base size fits at 14
but not at sizes above 14, and auto-fit then picks exactly 14. -/
theorem blurb_autofit_spec_witness :
    calculate_blurb_height 0 0
        [[(find_optimal_blurb_font_size (fun s : ℕ => [[(s : ℤ)]]) 0 0 14 : ℤ)]]
      ≤ 14 ∧
    find_optimal_blurb_font_size (fun s : ℕ => [[(s : ℤ)]]) 0 0 14
      ∈ blurbFontSizes ∧
    ∀ s ∈ blurbFontSizes,
      calculate_blurb_height 0 0 [[(s : ℤ)]] ≤ 14 →
      s ≤ find_optimal_blurb_font_size (fun s : ℕ => [[(s : ℤ)]]) 0 0 14 :=
  (blurb_autofit_spec (fun s : ℕ => [[(s : ℤ)]]) 0 0 14).2.1
    ⟨14, by decide, by
      show calculate_blurb_height 0 0 [[(14 : ℤ)]] ≤ 14
      simp [calculate_blurb_height, paraHeight]⟩

/-! ## Gradient fill of the language bar (lines 911-952) -/

/-- `_blend_colors`: channel-wise linear interpolation, factor clamped to
[0, 1], each channel truncated with Python `int()`. -/
def blend_colors (c1 c2 : Rgba) (factor : ℚ) : Rgba :=
  let f := max 0 (min 1 factor)
  ⟨ratTrunc ((c1.r : ℚ) + ((c2.r : ℚ) - (c1.r : ℚ)) * f),
   ratTrunc ((c1.g : ℚ) + ((c2.g : ℚ) - (c1.g : ℚ)) * f),
   ratTrunc ((c1.b : ℚ) + ((c2.b : ℚ) - (c1.b : ℚ)) * f),
   ratTrunc ((c1.a : ℚ) + ((c2.a : ℚ) - (c1.a : ℚ)) * f)⟩

/-- The color choice once the row's segment is found, as the source orders
the checks: first the transition band from the previous segment (only when a
previous segment exists), then the transition band to the next segment (only
when a next segment exists), else the segment's solid color. -/
def rowColorHit (g row : ℕ) :
    Option BarSegment → BarSegment → List BarSegment → Rgba
  | some prev, seg, nx :: _ =>
    if row - seg.start < g then
      blend_colors prev.color seg.color
        (((row - seg.start : ℕ) : ℚ) / ((g : ℕ) : ℚ))
    else if nx.start - row ≤ g then
      blend_colors seg.color nx.color
        (1 - ((nx.start - row : ℕ) : ℚ) / ((g : ℕ) : ℚ))
    else seg.color
  | some prev, seg, [] =>
    if row - seg.start < g then
      blend_colors prev.color seg.color
        (((row - seg.start : ℕ) : ℚ) / ((g : ℕ) : ℚ))
    else seg.color
  | none, seg, nx :: _ =>
    if nx.start - row ≤ g then
      blend_colors seg.color nx.color
        (1 - ((nx.start - row : ℕ) : ℚ) / ((g : ℕ) : ℚ))
    else seg.color
  | none, seg, [] => seg.color

/-- The per-row segment scan of the gradient loop: find the first segment
containing the row (carrying the previous segment for the band check). -/
def rowColorAux (g row : ℕ) :
    Option BarSegment → List BarSegment → Option Rgba
  | _, [] => none
  | prev?, seg :: rest =>
    if seg.start ≤ row ∧ row < seg.stop then
      some (rowColorHit g row prev? seg rest)
    else rowColorAux g row (some seg) rest

/-- Row color in gradient mode, with the source's fallback to the last
segment's color (or the theme's secondary color with no segments). -/
def gradient_row_color (secondary : Rgba) (g : ℕ)
    (segments : List BarSegment) (row : ℕ) : Rgba :=
  match rowColorAux g row none segments with
  | some c => c
  | none =>
    match segments.getLast? with
    | some s => s.color
    | none => secondary

/-- The color choice with the two band checks evaluated in the opposite
order ("to next" first), for comparison with the source's order. -/
def altRowColorHit (g row : ℕ) :
    Option BarSegment → BarSegment → List BarSegment → Rgba
  | some prev, seg, nx :: _ =>
    if nx.start - row ≤ g then
      blend_colors seg.color nx.color
        (1 - ((nx.start - row : ℕ) : ℚ) / ((g : ℕ) : ℚ))
    else if row - seg.start < g then
      blend_colors prev.color seg.color
        (((row - seg.start : ℕ) : ℚ) / ((g : ℕ) : ℚ))
    else seg.color
  | some prev, seg, [] =>
    if row - seg.start < g then
      blend_colors prev.color seg.color
        (((row - seg.start : ℕ) : ℚ) / ((g : ℕ) : ℚ))
    else seg.color
  | none, seg, nx :: _ =>
    if nx.start - row ≤ g then
      blend_colors seg.color nx.color
        (1 - ((nx.start - row : ℕ) : ℚ) / ((g : ℕ) : ℚ))
    else seg.color
  | none, seg, [] => seg.color

/-- The per-row scan with the reversed check order. -/
def altRowColorAux (g row : ℕ) :
    Option BarSegment → List BarSegment → Option Rgba
  | _, [] => none
  | prev?, seg :: rest =>
    if seg.start ≤ row ∧ row < seg.stop then
      some (altRowColorHit g row prev? seg rest)
    else altRowColorAux g row (some seg) rest

/-- Row color with the reversed check order. -/
def alt_gradient_row_color (secondary : Rgba) (g : ℕ)
    (segments : List BarSegment) (row : ℕ) : Rgba :=
  match altRowColorAux g row none segments with
  | some c => c
  | none =>
    match segments.getLast? with
    | some s => s.color
    | none => secondary

/-- The previous-segment accumulator after walking a list of segments. -/
def lastOpt (p? : Option BarSegment) (l : List BarSegment) :
    Option BarSegment :=
  match l.getLast? with
  | some t => some t
  | none => p?

/-- Walking past segments that do not contain the row only updates the
carried previous segment. -/
theorem rowColorAux_append (g row : ℕ) :
    ∀ (l : List BarSegment) (p? : Option BarSegment)
      (rest : List BarSegment),
      (∀ t ∈ l, ¬(t.start ≤ row ∧ row < t.stop)) →
      rowColorAux g row p? (l ++ rest)
        = rowColorAux g row (lastOpt p? l) rest
  | [], p?, rest, _ => by simp [lastOpt]
  | t :: ts, p?, rest, hnc => by
    have hnt : ¬(t.start ≤ row ∧ row < t.stop) :=
      hnc t (List.mem_cons_self t ts)
    show (if t.start ≤ row ∧ row < t.stop then _ else _) = _
    rw [if_neg hnt]
    show rowColorAux g row (some t) (ts ++ rest) = _
    rw [rowColorAux_append g row ts (some t) rest
      (fun u hu => hnc u (List.mem_cons_of_mem t hu))]
    congr 1
    cases ts with
    | nil => simp [lastOpt]
    | cons t2 ts2 =>
      simp only [lastOpt, List.getLast?_cons_cons]
      cases hgl : (t2 :: ts2).getLast? with
      | none =>
        exact absurd hgl (by simp)
      | some x => rfl

/-- Evaluation rule for `blend_colors` from the clamped factor and the
channel values. -/
theorem blend_colors_eval (c1 c2 : Rgba) (factor f2 : ℚ) (r g b a : ℤ)
    (hf : max 0 (min 1 factor) = f2)
    (hr : (c1.r : ℚ) + ((c2.r : ℚ) - (c1.r : ℚ)) * f2 = (r : ℚ))
    (hg : (c1.g : ℚ) + ((c2.g : ℚ) - (c1.g : ℚ)) * f2 = (g : ℚ))
    (hb : (c1.b : ℚ) + ((c2.b : ℚ) - (c1.b : ℚ)) * f2 = (b : ℚ))
    (ha : (c1.a : ℚ) + ((c2.a : ℚ) - (c1.a : ℚ)) * f2 = (a : ℚ)) :
    blend_colors c1 c2 factor = ⟨r, g, b, a⟩ := by
  simp only [blend_colors]
  rw [hf, hr, hg, hb, ha,
    ratTrunc_intCast, ratTrunc_intCast, ratTrunc_intCast, ratTrunc_intCast]

/-- C9: in gradient mode, a row inside a segment that lies within both the
transition band from the previous boundary and the band to the next boundary
gets the blend with the previous segment's color (the "from previous" check
is evaluated first and wins); a row outside both bands gets its segment's
solid color; and with a band (8) wider than half a segment (10/2) the
source's order differs observably from checking "to next" first. -/
theorem gradient_precedence_spec :
    (∀ (secondary : Rgba) (g row : ℕ) (l1 : List BarSegment)
        (prev seg nx : BarSegment) (l2 : List BarSegment),
      (∀ t ∈ l1, ¬(t.start ≤ row ∧ row < t.stop)) →
      ¬(prev.start ≤ row ∧ row < prev.stop) →
      seg.start ≤ row → row < seg.stop →
      row - seg.start < g →
      nx.start - row ≤ g →
      gradient_row_color secondary g (l1 ++ prev :: seg :: nx :: l2) row
        = blend_colors prev.color seg.color
            (((row - seg.start : ℕ) : ℚ) / ((g : ℕ) : ℚ))) ∧
    (∀ (secondary : Rgba) (g row : ℕ) (l1 : List BarSegment)
        (seg : BarSegment) (l2 : List BarSegment),
      (∀ t ∈ l1, ¬(t.start ≤ row ∧ row < t.stop)) →
      seg.start ≤ row → row < seg.stop →
      (l1 = [] ∨ g ≤ row - seg.start) →
      (∀ nx, l2.head? = some nx → g < nx.start - row) →
      gradient_row_color secondary g (l1 ++ seg :: l2) row = seg.color) ∧
    (segHeight ⟨10, 20, ⟨0, 252, 0, 252⟩⟩ / 2 < 8 ∧
     gradient_row_color ⟨0, 0, 0, 0⟩ 8
        [⟨0, 10, ⟨252, 0, 0, 252⟩⟩, ⟨10, 20, ⟨0, 252, 0, 252⟩⟩,
         ⟨20, 30, ⟨0, 0, 252, 252⟩⟩] 12
       = ⟨189, 63, 0, 252⟩ ∧
     alt_gradient_row_color ⟨0, 0, 0, 0⟩ 8
        [⟨0, 10, ⟨252, 0, 0, 252⟩⟩, ⟨10, 20, ⟨0, 252, 0, 252⟩⟩,
         ⟨20, 30, ⟨0, 0, 252, 252⟩⟩] 12
       = ⟨0, 252, 0, 252⟩ ∧
     gradient_row_color ⟨0, 0, 0, 0⟩ 8
        [⟨0, 10, ⟨252, 0, 0, 252⟩⟩, ⟨10, 20, ⟨0, 252, 0, 252⟩⟩,
         ⟨20, 30, ⟨0, 0, 252, 252⟩⟩] 12
       ≠ alt_gradient_row_color ⟨0, 0, 0, 0⟩ 8
          [⟨0, 10, ⟨252, 0, 0, 252⟩⟩, ⟨10, 20, ⟨0, 252, 0, 252⟩⟩,
           ⟨20, 30, ⟨0, 0, 252, 252⟩⟩] 12) := by
  have hcode : gradient_row_color ⟨0, 0, 0, 0⟩ 8
      [⟨0, 10, ⟨252, 0, 0, 252⟩⟩, ⟨10, 20, ⟨0, 252, 0, 252⟩⟩,
       ⟨20, 30, ⟨0, 0, 252, 252⟩⟩] 12
      = blend_colors ⟨252, 0, 0, 252⟩ ⟨0, 252, 0, 252⟩
          (((2 : ℕ) : ℚ) / ((8 : ℕ) : ℚ)) := rfl
  have halt : alt_gradient_row_color ⟨0, 0, 0, 0⟩ 8
      [⟨0, 10, ⟨252, 0, 0, 252⟩⟩, ⟨10, 20, ⟨0, 252, 0, 252⟩⟩,
       ⟨20, 30, ⟨0, 0, 252, 252⟩⟩] 12
      = blend_colors ⟨0, 252, 0, 252⟩ ⟨0, 0, 252, 252⟩
          (1 - ((8 : ℕ) : ℚ) / ((8 : ℕ) : ℚ)) := rfl
  have hcodeval : blend_colors ⟨252, 0, 0, 252⟩ ⟨0, 252, 0, 252⟩
      (((2 : ℕ) : ℚ) / ((8 : ℕ) : ℚ)) = ⟨189, 63, 0, 252⟩ := by
    refine blend_colors_eval _ _ _ (1/4) 189 63 0 252 (by norm_num) ?_ ?_ ?_ ?_
    · show ((252 : ℤ) : ℚ) + (((0 : ℤ) : ℚ) - ((252 : ℤ) : ℚ)) * (1/4)
        = ((189 : ℤ) : ℚ)
      push_cast
      norm_num
    · show ((0 : ℤ) : ℚ) + (((252 : ℤ) : ℚ) - ((0 : ℤ) : ℚ)) * (1/4)
        = ((63 : ℤ) : ℚ)
      push_cast
      norm_num
    · show ((0 : ℤ) : ℚ) + (((0 : ℤ) : ℚ) - ((0 : ℤ) : ℚ)) * (1/4)
        = ((0 : ℤ) : ℚ)
      push_cast
      norm_num
    · show ((252 : ℤ) : ℚ) + (((252 : ℤ) : ℚ) - ((252 : ℤ) : ℚ)) * (1/4)
        = ((252 : ℤ) : ℚ)
      push_cast
      norm_num
  have haltval : blend_colors ⟨0, 252, 0, 252⟩ ⟨0, 0, 252, 252⟩
      (1 - ((8 : ℕ) : ℚ) / ((8 : ℕ) : ℚ)) = ⟨0, 252, 0, 252⟩ := by
    refine blend_colors_eval _ _ _ 0 0 252 0 252 (by norm_num) ?_ ?_ ?_ ?_
    · show ((0 : ℤ) : ℚ) + (((0 : ℤ) : ℚ) - ((0 : ℤ) : ℚ)) * 0
        = ((0 : ℤ) : ℚ)
      norm_num
    · show ((252 : ℤ) : ℚ) + (((0 : ℤ) : ℚ) - ((252 : ℤ) : ℚ)) * 0
        = ((252 : ℤ) : ℚ)
      norm_num
    · show ((0 : ℤ) : ℚ) + (((252 : ℤ) : ℚ) - ((0 : ℤ) : ℚ)) * 0
        = ((0 : ℤ) : ℚ)
      norm_num
    · show ((252 : ℤ) : ℚ) + (((252 : ℤ) : ℚ) - ((252 : ℤ) : ℚ)) * 0
        = ((252 : ℤ) : ℚ)
      norm_num
  refine ⟨?_, ?_, by decide, ?_, ?_, ?_⟩
  · intro secondary g row l1 prev seg nx l2 hnc hnp hs1 hs2 hdp hdn
    have hsplit : l1 ++ prev :: seg :: nx :: l2
        = (l1 ++ [prev]) ++ (seg :: nx :: l2) := by simp
    have hnc2 : ∀ t ∈ l1 ++ [prev], ¬(t.start ≤ row ∧ row < t.stop) := by
      intro t ht
      rcases List.mem_append.mp ht with h | h
      · exact hnc t h
      · rw [List.mem_singleton.mp h]
        exact hnp
    have hlast : lastOpt none (l1 ++ [prev]) = some prev := by
      simp [lastOpt]
    have hval : rowColorAux g row none (l1 ++ prev :: seg :: nx :: l2)
        = some (blend_colors prev.color seg.color
            (((row - seg.start : ℕ) : ℚ) / ((g : ℕ) : ℚ))) := by
      rw [hsplit, rowColorAux_append g row (l1 ++ [prev]) none _ hnc2, hlast]
      show (if seg.start ≤ row ∧ row < seg.stop
          then some (rowColorHit g row (some prev) seg (nx :: l2))
          else _) = _
      rw [if_pos ⟨hs1, hs2⟩]
      congr 1
      simp only [rowColorHit]
      rw [if_pos hdp]
    unfold gradient_row_color
    rw [hval]
  · intro secondary g row l1 seg l2 hnc hs1 hs2 hp hn
    have hhit : rowColorHit g row (lastOpt none l1) seg l2 = seg.color := by
      have hnb : ∀ nxc, l2.head? = some nxc → ¬ (nxc.start - row ≤ g) := by
        intro nxc hh
        have := hn nxc hh
        omega
      rcases hp with hp | hp
      · have hl0 : lastOpt none l1 = none := by rw [hp]; rfl
        rw [hl0]
        cases hl2 : l2 with
        | nil => simp only [rowColorHit]
        | cons nx l2t =>
          simp only [rowColorHit]
          rw [if_neg (hnb nx (by rw [hl2]; rfl))]
      · cases hlo : lastOpt none l1 with
        | none =>
          cases hl2 : l2 with
          | nil => simp only [rowColorHit]
          | cons nx l2t =>
            simp only [rowColorHit]
            rw [if_neg (hnb nx (by rw [hl2]; rfl))]
        | some t =>
          cases hl2 : l2 with
          | nil =>
            simp only [rowColorHit]
            rw [if_neg (by omega)]
          | cons nx l2t =>
            simp only [rowColorHit]
            rw [if_neg (by omega),
              if_neg (hnb nx (by rw [hl2]; rfl))]
    have hval : rowColorAux g row none (l1 ++ seg :: l2)
        = some seg.color := by
      rw [rowColorAux_append g row l1 none _ hnc]
      show (if seg.start ≤ row ∧ row < seg.stop
          then some (rowColorHit g row (lastOpt none l1) seg l2)
          else _) = _
      rw [if_pos ⟨hs1, hs2⟩, hhit]
    unfold gradient_row_color
    rw [hval]
  · rw [hcode]
    exact hcodeval
  · rw [halt]
    exact haltval
  · rw [hcode, halt, hcodeval, haltval]
    decide

/-- C9 witness: a row in both transition bands of a three-segment bar gets
the blend with the previous segment's color. -/
theorem gradient_precedence_spec_witness :
    gradient_row_color ⟨0, 0, 0, 0⟩ 8
        [⟨0, 5, ⟨8, 0, 0, 255⟩⟩, ⟨5, 10, ⟨0, 8, 0, 255⟩⟩,
         ⟨10, 15, ⟨0, 0, 8, 255⟩⟩] 6
      = blend_colors ⟨8, 0, 0, 255⟩ ⟨0, 8, 0, 255⟩
          (((6 - 5 : ℕ) : ℚ) / ((8 : ℕ) : ℚ)) :=
  gradient_precedence_spec.1 ⟨0, 0, 0, 0⟩ 8 6 []
    ⟨0, 5, ⟨8, 0, 0, 255⟩⟩ ⟨5, 10, ⟨0, 8, 0, 255⟩⟩ ⟨10, 15, ⟨0, 0, 8, 255⟩⟩
    [] (by simp) (by decide) (by decide) (by decide) (by decide) (by decide)

/-! ## Balanced text wrapping (`_wrap_text_balanced`, lines 482-546)

The dynamic program is parametrized by `lw i j`, the rendered width of the
line made of words `i` to `j-1` (a font-metrics environment parameter
realized as `lwOf ww words` below), the width budget `M`, and the word
count `n`. -/

/-- The sentinel cost `inf = 10**18` of `_wrap_text_balanced`. -/
def wbInf : ℕ := 10 ^ 18

/-- The inner `for j in range(i+1, n+1)` loop: scan break candidates in
order, stop (`break`) at the first overflowing line, and replace the best
candidate only on a strict cost decrease (`total < cost[i]`). -/
def wbInner (lw : ℕ → ℕ → ℕ) (M : ℕ) (cost : ℕ → ℕ) (i : ℕ) :
    List ℕ → ℕ × ℕ → ℕ × ℕ
  | [], best => best
  | j :: js, best =>
    if M < lw i j then best
    else
      if (M - lw i j) ^ 2 + cost j < best.1 then
        wbInner lw M cost i js ((M - lw i j) ^ 2 + cost j, j)
      else wbInner lw M cost i js best

/-- The DP pass filling `cost` and `breaks` from `i = n` downward
(`cost[n] = 0`, initial `cost[i] = inf`, initial `breaks[i] = n`); the fuel
argument bounds the recursion depth and any fuel of at least `n - i` yields
the table value. -/
def wbDp (lw : ℕ → ℕ → ℕ) (M n : ℕ) : ℕ → ℕ → ℕ × ℕ
  | 0, i => if n ≤ i then (0, n) else (wbInf, n)
  | fuel + 1, i =>
    if n ≤ i then (0, n)
    else
      wbInner lw M (fun j => (wbDp lw M n fuel j).1) i
        (List.range' (i + 1) (n - i)) (wbInf, n)

/-- `cost[i]` of the DP. -/
def wbCost (lw : ℕ → ℕ → ℕ) (M n i : ℕ) : ℕ := (wbDp lw M n n i).1

/-- `breaks[i]` of the DP. -/
def wbBreaks (lw : ℕ → ℕ → ℕ) (M n i : ℕ) : ℕ := (wbDp lw M n n i).2

/-- The reconstruction loop (`while idx < n`), producing the line intervals;
it stops early if a break does not advance. -/
def wbLinesAux (lw : ℕ → ℕ → ℕ) (M n : ℕ) : ℕ → ℕ → List (ℕ × ℕ)
  | 0, _ => []
  | fuel + 1, idx =>
    if idx < n then
      if wbBreaks lw M n idx ≤ idx then []
      else (idx, wbBreaks lw M n idx)
        :: wbLinesAux lw M n fuel (wbBreaks lw M n idx)
    else []

/-- The reconstructed line intervals starting from word 0. -/
def wbLines (lw : ℕ → ℕ → ℕ) (M n : ℕ) : List (ℕ × ℕ) :=
  wbLinesAux lw M n n 0

/-- The words `i` to `j-1` of the text (`words[i:j]`). -/
def sliceWords (words : List String) (i j : ℕ) : List String :=
  (words.drop i).take (j - i)

/-- Width of the joined slice `words[i:j]` under the width function `ww`. -/
def lwOf (ww : List String → ℕ) (words : List String) (i j : ℕ) : ℕ :=
  ww (sliceWords words i j)

/-- `_wrap_text_balanced`: fall back to greedy wrapping when a single word
exceeds the budget, when no finite-cost layout exists, or when the
reconstruction is empty; otherwise return the DP's line partition. -/
def wrap_text_balanced (ww : List String → ℕ) (M : ℕ)
    (words : List String) : List (List String) :=
  if words.isEmpty then []
  else if words.any (fun w => M < ww [w]) then wrap_text_to_width ww M words
  else if wbInf ≤ wbCost (lwOf ww words) M words.length 0 then
    wrap_text_to_width ww M words
  else if (wbLines (lwOf ww words) M words.length).isEmpty then
    wrap_text_to_width ww M words
  else
    (wbLines (lwOf ww words) M words.length).map
      (fun q => sliceWords words q.1 q.2)

/-- A partition of the word range `[i, n)` into consecutive non-empty line
intervals. -/
inductive WbPartition (n : ℕ) : ℕ → List (ℕ × ℕ) → Prop
  | nil : WbPartition n n []
  | cons {i j : ℕ} {p : List (ℕ × ℕ)} :
      i < j → WbPartition n j p → WbPartition n i ((i, j) :: p)

/-- Total squared-slack cost of a line partition. -/
def wbCostOf (lw : ℕ → ℕ → ℕ) (M : ℕ) (p : List (ℕ × ℕ)) : ℕ :=
  (p.map (fun q => (M - lw q.1 q.2) ^ 2)).sum

/-- Every line of the partition fits the width budget. -/
def wbFits (lw : ℕ → ℕ → ℕ) (M : ℕ) (p : List (ℕ × ℕ)) : Prop :=
  ∀ q ∈ p, lw q.1 q.2 ≤ M

theorem wbPartition_le (n : ℕ) :
    ∀ {i : ℕ} {p : List (ℕ × ℕ)}, WbPartition n i p → i ≤ n := by
  intro i p h
  induction h with
  | nil => exact le_refl n
  | cons hij _ ih => omega

/-- The inner scan only inspects the cost table at the scanned indices. -/
theorem wbInner_congr (lw : ℕ → ℕ → ℕ) (M : ℕ) (c1 c2 : ℕ → ℕ) (i : ℕ) :
    ∀ (js : List ℕ) (b : ℕ × ℕ), (∀ j ∈ js, c1 j = c2 j) →
      wbInner lw M c1 i js b = wbInner lw M c2 i js b
  | [], _, _ => rfl
  | j :: js, b, h => by
    simp only [wbInner]
    rw [h j (List.mem_cons_self j js)]
    by_cases hov : M < lw i j
    · rw [if_pos hov, if_pos hov]
    · rw [if_neg hov, if_neg hov]
      by_cases hlt : (M - lw i j) ^ 2 + c2 j < b.1
      · rw [if_pos hlt, if_pos hlt]
        exact wbInner_congr lw M c1 c2 i js _
          (fun u hu => h u (List.mem_cons_of_mem j hu))
      · rw [if_neg hlt, if_neg hlt]
        exact wbInner_congr lw M c1 c2 i js b
          (fun u hu => h u (List.mem_cons_of_mem j hu))

/-- The `break` on the first overflowing candidate makes the scan equal to
the scan over the fitting prefix of the candidate list. -/
theorem wbInner_takeWhile (lw : ℕ → ℕ → ℕ) (M : ℕ) (cost : ℕ → ℕ) (i : ℕ) :
    ∀ (js : List ℕ) (b : ℕ × ℕ),
      wbInner lw M cost i js b
        = wbInner lw M cost i
            (js.takeWhile (fun j => decide (lw i j ≤ M))) b
  | [], _ => rfl
  | j :: js, b => by
    by_cases hov : M < lw i j
    · have hpred : (decide (lw i j ≤ M)) = false := by
        simp
        omega
      rw [List.takeWhile_cons]
      simp only [hpred, Bool.false_eq_true, if_false]
      simp only [wbInner]
      rw [if_pos hov]
    · have hpred : (decide (lw i j ≤ M)) = true := by
        simp
        omega
      rw [List.takeWhile_cons]
      simp only [hpred, if_true]
      simp only [wbInner]
      rw [if_neg hov, if_neg hov]
      by_cases hlt : (M - lw i j) ^ 2 + cost j < b.1
      · rw [if_pos hlt, if_pos hlt]
        exact wbInner_takeWhile lw M cost i js _
      · rw [if_neg hlt, if_neg hlt]
        exact wbInner_takeWhile lw M cost i js b

/-- The chosen break of the inner scan is the initial one or a scanned one. -/
theorem wbInner_snd_mem (lw : ℕ → ℕ → ℕ) (M : ℕ) (cost : ℕ → ℕ) (i : ℕ) :
    ∀ (js : List ℕ) (b : ℕ × ℕ),
      (wbInner lw M cost i js b).2 = b.2 ∨
        (wbInner lw M cost i js b).2 ∈ js
  | [], _ => Or.inl rfl
  | j :: js, b => by
    simp only [wbInner]
    by_cases hov : M < lw i j
    · rw [if_pos hov]
      exact Or.inl rfl
    · rw [if_neg hov]
      by_cases hlt : (M - lw i j) ^ 2 + cost j < b.1
      · rw [if_pos hlt]
        rcases wbInner_snd_mem lw M cost i js ((M - lw i j) ^ 2 + cost j, j)
          with h | h
        · exact Or.inr (by rw [h]; exact List.mem_cons_self j js)
        · exact Or.inr (List.mem_cons_of_mem j h)
      · rw [if_neg hlt]
        rcases wbInner_snd_mem lw M cost i js b with h | h
        · exact Or.inl h
        · exact Or.inr (List.mem_cons_of_mem j h)

/-- Full characterization of the inner scan over a fitting, strictly
ascending candidate list: the result does not exceed the initial best, is a
lower bound of all scanned totals, and is either the unchanged initial best
(when nothing strictly beats it) or the first-scanned candidate attaining
the final minimum. -/
theorem wbInner_spec (lw : ℕ → ℕ → ℕ) (M : ℕ) (cost : ℕ → ℕ) (i : ℕ) :
    ∀ (js : List ℕ) (b jb : ℕ),
      (∀ j ∈ js, lw i j ≤ M) → js.Pairwise (· < ·) →
      (wbInner lw M cost i js (b, jb)).1 ≤ b ∧
      (∀ j ∈ js,
        (wbInner lw M cost i js (b, jb)).1 ≤ (M - lw i j) ^ 2 + cost j) ∧
      ((wbInner lw M cost i js (b, jb) = (b, jb) ∧
          ∀ j ∈ js, b ≤ (M - lw i j) ^ 2 + cost j) ∨
        (∃ j ∈ js,
          wbInner lw M cost i js (b, jb) = ((M - lw i j) ^ 2 + cost j, j) ∧
          (M - lw i j) ^ 2 + cost j < b ∧
          ∀ j2 ∈ js, j2 < j →
            (wbInner lw M cost i js (b, jb)).1
              < (M - lw i j2) ^ 2 + cost j2))
  | [], b, jb, _, _ => by
    refine ⟨le_refl b, ?_, Or.inl ⟨rfl, ?_⟩⟩
    · intro j hj
      simp at hj
    · intro j hj
      simp at hj
  | j :: js, b, jb, hfit, hpw => by
    have hfj : lw i j ≤ M := hfit j (List.mem_cons_self j js)
    have hov : ¬ M < lw i j := not_lt.mpr hfj
    have hfit2 : ∀ u ∈ js, lw i u ≤ M :=
      fun u hu => hfit u (List.mem_cons_of_mem j hu)
    have hpw2 : js.Pairwise (· < ·) := (List.pairwise_cons.mp hpw).2
    have hjlt : ∀ u ∈ js, j < u := (List.pairwise_cons.mp hpw).1
    simp only [wbInner]
    rw [if_neg hov]
    by_cases hlt : (M - lw i j) ^ 2 + cost j < (b, jb).1
    · rw [if_pos hlt]
      obtain ⟨ih1, ih2, ih3⟩ := wbInner_spec lw M cost i js
        ((M - lw i j) ^ 2 + cost j) j hfit2 hpw2
      refine ⟨le_of_lt (lt_of_le_of_lt ih1 hlt), ?_, ?_⟩
      · intro u hu
        rcases List.mem_cons.mp hu with rfl | hmem
        · exact ih1
        · exact ih2 u hmem
      · rcases ih3 with ⟨hres, hall⟩ | ⟨u, humem, hres, hub, hfirst⟩
        · refine Or.inr ⟨j, List.mem_cons_self j js, hres, hlt, ?_⟩
          intro j2 hj2 hj2lt
          rcases List.mem_cons.mp hj2 with rfl | hmem
          · omega
          · exact absurd hj2lt (by have := hjlt j2 hmem; omega)
        · refine Or.inr ⟨u, List.mem_cons_of_mem j humem, hres,
            lt_trans hub hlt, ?_⟩
          intro j2 hj2 hj2lt
          rcases List.mem_cons.mp hj2 with rfl | hmem
          · rw [hres]
            exact hub
          · exact hfirst j2 hmem hj2lt
    · rw [if_neg hlt]
      have hble : b ≤ (M - lw i j) ^ 2 + cost j := not_lt.mp hlt
      obtain ⟨ih1, ih2, ih3⟩ := wbInner_spec lw M cost i js b jb hfit2 hpw2
      refine ⟨ih1, ?_, ?_⟩
      · intro u hu
        rcases List.mem_cons.mp hu with rfl | hmem
        · exact le_trans ih1 hble
        · exact ih2 u hmem
      · rcases ih3 with ⟨hres, hall⟩ | ⟨u, humem, hres, hub, hfirst⟩
        · refine Or.inl ⟨hres, ?_⟩
          intro u hu
          rcases List.mem_cons.mp hu with rfl | hmem
          · exact hble
          · exact hall u hmem
        · refine Or.inr ⟨u, List.mem_cons_of_mem j humem, hres, hub, ?_⟩
          intro j2 hj2 hj2lt
          rcases List.mem_cons.mp hj2 with rfl | hmem
          · rw [hres]
            exact lt_of_lt_of_le hub hble
          · exact hfirst j2 hmem hj2lt

theorem mem_range'_bounds {m s len : ℕ} (h : m ∈ List.range' s len) :
    s ≤ m ∧ m < s + len := by
  rw [List.mem_range'] at h
  obtain ⟨k, hk, rfl⟩ := h
  omega

/-- Any fuel of at least `n - i` computes the same DP table entry. -/
theorem wbDp_fuel (lw : ℕ → ℕ → ℕ) (M n : ℕ) :
    ∀ (f1 f2 i : ℕ), n - i ≤ f1 → n - i ≤ f2 →
      wbDp lw M n f1 i = wbDp lw M n f2 i
  | 0, f2, i, h1, _ => by
    have hni : n ≤ i := by omega
    cases f2 with
    | zero => rfl
    | succ g2 => simp [wbDp, hni]
  | g1 + 1, f2, i, h1, h2 => by
    by_cases hni : n ≤ i
    · cases f2 with
      | zero => simp [wbDp, hni]
      | succ g2 => simp [wbDp, hni]
    · push_neg at hni
      cases f2 with
      | zero => omega
      | succ g2 =>
        show wbDp lw M n (g1 + 1) i = wbDp lw M n (g2 + 1) i
        simp only [wbDp]
        rw [if_neg (by omega), if_neg (by omega)]
        apply wbInner_congr
        intro j hj
        obtain ⟨hj1, hj2⟩ := mem_range'_bounds hj
        exact congrArg Prod.fst
          (wbDp_fuel lw M n g1 g2 j (by omega) (by omega))

theorem wbCost_base (lw : ℕ → ℕ → ℕ) (M n i : ℕ) (h : n ≤ i) :
    wbCost lw M n i = 0 ∧ wbBreaks lw M n i = n := by
  unfold wbCost wbBreaks
  cases n with
  | zero => simp [wbDp]
  | succ m => simp [wbDp, h]

/-- Unfolding of the DP entry at an in-range index in terms of the inner
scan over the candidate break points. -/
theorem wbDp_unfold (lw : ℕ → ℕ → ℕ) (M n i : ℕ) (hi : i < n) :
    wbDp lw M n n i
      = wbInner lw M (fun j => wbCost lw M n j) i
          (List.range' (i + 1) (n - i)) (wbInf, n) := by
  obtain ⟨m, rfl⟩ : ∃ m, n = m + 1 := ⟨n - 1, by omega⟩
  show wbDp lw M (m + 1) (m + 1) i = _
  simp only [wbDp]
  rw [if_neg (by omega)]
  apply wbInner_congr
  intro j hj
  obtain ⟨hj1, hj2⟩ := mem_range'_bounds hj
  exact congrArg Prod.fst
    (wbDp_fuel lw M (m + 1) m (m + 1) j (by omega) (by omega))

theorem wbBreaks_le (lw : ℕ → ℕ → ℕ) (M n i : ℕ) :
    wbBreaks lw M n i ≤ n := by
  by_cases hi : i < n
  · unfold wbBreaks
    rw [wbDp_unfold lw M n i hi]
    rcases wbInner_snd_mem lw M (fun j => wbCost lw M n j) i
      (List.range' (i + 1) (n - i)) (wbInf, n) with h | h
    · rw [h]
    · obtain ⟨h1, h2⟩ := mem_range'_bounds h
      omega
  · rw [(wbCost_base lw M n i (by omega)).2]

/-- In a strictly ascending list, an element all of whose predecessors
satisfy the predicate lies in the `takeWhile` prefix. -/
theorem mem_takeWhile_of_sorted {p : ℕ → Bool} :
    ∀ (l : List ℕ), l.Pairwise (· < ·) → ∀ j ∈ l,
      (∀ j2 ∈ l, j2 ≤ j → p j2 = true) → j ∈ l.takeWhile p
  | [], _, j, hj, _ => by simp at hj
  | a :: l, hpw, j, hj, hall => by
    have hpa : p a = true := by
      refine hall a (List.mem_cons_self a l) ?_
      rcases List.mem_cons.mp hj with rfl | hmem
      · exact Nat.le_refl _
      · exact le_of_lt ((List.pairwise_cons.mp hpw).1 j hmem)
    rw [List.takeWhile_cons]
    simp only [hpa, if_true]
    rcases List.mem_cons.mp hj with rfl | hmem
    · exact List.mem_cons_self _ _
    · refine List.mem_cons_of_mem a
        (mem_takeWhile_of_sorted l (List.pairwise_cons.mp hpw).2 j hmem ?_)
      intro u hu hle
      exact hall u (List.mem_cons_of_mem a hu) hle

/-- The fitting prefix of the candidate break points of line start `i`. -/
def wbFitting (lw : ℕ → ℕ → ℕ) (M n i : ℕ) : List ℕ :=
  (List.range' (i + 1) (n - i)).takeWhile (fun u => decide (lw i u ≤ M))

theorem wbFitting_pairwise (lw : ℕ → ℕ → ℕ) (M n i : ℕ) :
    (wbFitting lw M n i).Pairwise (· < ·) :=
  List.Pairwise.sublist (List.takeWhile_sublist _)
    (List.pairwise_lt_range' (i + 1) (n - i) 1 (by omega))

theorem wbFitting_facts (lw : ℕ → ℕ → ℕ) (M n i : ℕ) :
    ∀ j ∈ wbFitting lw M n i, lw i j ≤ M ∧ i < j ∧ j ≤ n := by
  intro j hj
  have hfit : lw i j ≤ M := by
    have := List.mem_takeWhile_imp hj
    simpa using this
  have hmem : j ∈ List.range' (i + 1) (n - i) :=
    (List.takeWhile_sublist _).subset hj
  obtain ⟨h1, h2⟩ := mem_range'_bounds hmem
  exact ⟨hfit, by omega, by omega⟩

/-- A fitting break point within range lies in the fitting prefix, given
that line widths grow with the break point. -/
theorem mem_wbFitting (lw : ℕ → ℕ → ℕ) (M n i j : ℕ) (hij : i < j)
    (hjn : j ≤ n)
    (hmono : ∀ i2 < n, ∀ j2 ≤ n, ∀ k ≤ n, i2 < j2 → j2 ≤ k →
      lw i2 j2 ≤ lw i2 k)
    (hfj : lw i j ≤ M) : j ∈ wbFitting lw M n i := by
  apply mem_takeWhile_of_sorted
  · exact List.pairwise_lt_range' (i + 1) (n - i) 1 (by omega)
  · rw [List.mem_range']
    exact ⟨j - (i + 1), by omega, by omega⟩
  · intro j2 hj2 hle
    obtain ⟨hl, hr⟩ := mem_range'_bounds hj2
    have : lw i j2 ≤ lw i j :=
      hmono i (by omega) j2 (by omega) j hjn (by omega) hle
    simp
    omega

/-- Unfolding of the DP cost at an in-range index via the fitting prefix. -/
theorem wbDp_unfold_fitting (lw : ℕ → ℕ → ℕ) (M n i : ℕ) (hi : i < n) :
    wbDp lw M n n i
      = wbInner lw M (fun j => wbCost lw M n j) i
          (wbFitting lw M n i) (wbInf, n) := by
  rw [wbDp_unfold lw M n i hi, wbInner_takeWhile]
  rfl

/-- Lower bound: the DP cost at `i` is at most the cost of any fitting
partition of `[i, n)`. -/
theorem wbCost_le_partition (lw : ℕ → ℕ → ℕ) (M n : ℕ)
    (hmono : ∀ i2 < n, ∀ j2 ≤ n, ∀ k ≤ n, i2 < j2 → j2 ≤ k →
      lw i2 j2 ≤ lw i2 k) :
    ∀ {i : ℕ} {p : List (ℕ × ℕ)}, WbPartition n i p → wbFits lw M p →
      wbCost lw M n i ≤ wbCostOf lw M p := by
  intro i p hp
  induction hp with
  | nil =>
    intro
    rw [(wbCost_base lw M n n (le_refl n)).1]
    exact Nat.zero_le _
  | @cons i j p hij hpart ih =>
    intro hfits
    have hfj : lw i j ≤ M := hfits (i, j) (List.mem_cons_self _ _)
    have hjn : j ≤ n := wbPartition_le n hpart
    have hin : i < n := by omega
    have hmem := mem_wbFitting lw M n i j hij hjn hmono hfj
    obtain ⟨-, h2, -⟩ := wbInner_spec lw M (fun u => wbCost lw M n u) i
      (wbFitting lw M n i) wbInf n
      (fun u hu => (wbFitting_facts lw M n i u hu).1)
      (wbFitting_pairwise lw M n i)
    have hle := h2 j hmem
    have hcost : wbCost lw M n i
        = (wbInner lw M (fun u => wbCost lw M n u) i
            (wbFitting lw M n i) (wbInf, n)).1 := by
      show (wbDp lw M n n i).1 = _
      rw [wbDp_unfold_fitting lw M n i hin]
    rw [hcost]
    calc (wbInner lw M (fun u => wbCost lw M n u) i
          (wbFitting lw M n i) (wbInf, n)).1
        ≤ (M - lw i j) ^ 2 + wbCost lw M n j := hle
      _ ≤ (M - lw i j) ^ 2 + wbCostOf lw M p := by
          have := ih (fun q hq => hfits q (List.mem_cons_of_mem _ hq))
          omega
      _ = wbCostOf lw M ((i, j) :: p) := by
          simp [wbCostOf]

/-- Upper bound on the DP cost: at most `(n - i)` penalty squares. -/
theorem wbCost_bound (lw : ℕ → ℕ → ℕ) (M n : ℕ)
    (hfit1 : ∀ i < n, lw i (i + 1) ≤ M)
    (hmono : ∀ i2 < n, ∀ j2 ≤ n, ∀ k ≤ n, i2 < j2 → j2 ≤ k →
      lw i2 j2 ≤ lw i2 k) :
    ∀ (f i : ℕ), n - i ≤ f → wbCost lw M n i ≤ (n - i) * M ^ 2
  | f, i, hf => by
    by_cases hin : i < n
    · cases f with
      | zero => omega
      | succ g =>
        have h1 := hfit1 i hin
        have hmem := mem_wbFitting lw M n i (i + 1) (by omega) (by omega)
          hmono h1
        obtain ⟨-, h2, -⟩ := wbInner_spec lw M (fun u => wbCost lw M n u) i
          (wbFitting lw M n i) wbInf n
          (fun u hu => (wbFitting_facts lw M n i u hu).1)
          (wbFitting_pairwise lw M n i)
        have hle := h2 (i + 1) hmem
        have hcost : wbCost lw M n i
            = (wbInner lw M (fun u => wbCost lw M n u) i
                (wbFitting lw M n i) (wbInf, n)).1 := by
          show (wbDp lw M n n i).1 = _
          rw [wbDp_unfold_fitting lw M n i hin]
        have ihb := wbCost_bound lw M n hfit1 hmono g (i + 1) (by omega)
        have hpen : (M - lw i (i + 1)) ^ 2 ≤ M ^ 2 :=
          Nat.pow_le_pow_left (Nat.sub_le M _) 2
        have hsplit : (n - i) * M ^ 2 = M ^ 2 + (n - (i + 1)) * M ^ 2 := by
          have hni : n - i = (n - (i + 1)) + 1 := by omega
          rw [hni]
          ring
        rw [hcost, hsplit]
        omega
    · rw [(wbCost_base lw M n i (by omega)).1]
      exact Nat.zero_le _

/-- The reconstruction from `i` is a fitting partition of `[i, n)` whose
cost is exactly the DP cost at `i`. -/
theorem wb_achieves (lw : ℕ → ℕ → ℕ) (M n : ℕ)
    (hfit1 : ∀ i < n, lw i (i + 1) ≤ M)
    (hmono : ∀ i2 < n, ∀ j2 ≤ n, ∀ k ≤ n, i2 < j2 → j2 ≤ k →
      lw i2 j2 ≤ lw i2 k)
    (hsize : n * M ^ 2 < wbInf) :
    ∀ (f i : ℕ), n - i ≤ f → i ≤ n →
      WbPartition n i (wbLinesAux lw M n f i) ∧
      wbFits lw M (wbLinesAux lw M n f i) ∧
      wbCostOf lw M (wbLinesAux lw M n f i) = wbCost lw M n i
  | 0, i, hf, hin => by
    have hieq : i = n := by omega
    subst hieq
    refine ⟨WbPartition.nil, ?_, ?_⟩
    · intro q hq
      simp [wbLinesAux] at hq
    · rw [(wbCost_base lw M i i (le_refl i)).1]
      rfl
  | f + 1, i, hf, hin => by
    by_cases hilt : i < n
    · have hclt : wbCost lw M n i < wbInf := by
        have hb := wbCost_bound lw M n hfit1 hmono n i (by omega)
        have : (n - i) * M ^ 2 ≤ n * M ^ 2 :=
          Nat.mul_le_mul_right _ (by omega)
        omega
      have hcost : wbCost lw M n i
          = (wbInner lw M (fun u => wbCost lw M n u) i
              (wbFitting lw M n i) (wbInf, n)).1 := by
        show (wbDp lw M n n i).1 = _
        rw [wbDp_unfold_fitting lw M n i hilt]
      have hbrkeq : wbBreaks lw M n i
          = (wbInner lw M (fun u => wbCost lw M n u) i
              (wbFitting lw M n i) (wbInf, n)).2 := by
        show (wbDp lw M n n i).2 = _
        rw [wbDp_unfold_fitting lw M n i hilt]
      obtain ⟨h1, h2, h3⟩ := wbInner_spec lw M (fun u => wbCost lw M n u) i
        (wbFitting lw M n i) wbInf n
        (fun u hu => (wbFitting_facts lw M n i u hu).1)
        (wbFitting_pairwise lw M n i)
      rcases h3 with ⟨hres, -⟩ | ⟨j, hjmem, hres, -, -⟩
      · exfalso
        rw [hcost, hres] at hclt
        exact lt_irrefl _ hclt
      · obtain ⟨hjfit, hjgt, hjle⟩ := wbFitting_facts lw M n i j hjmem
        have hbrk : wbBreaks lw M n i = j := by
          rw [hbrkeq, hres]
        have hcosti : wbCost lw M n i
            = (M - lw i j) ^ 2 + wbCost lw M n j := by
          rw [hcost, hres]
        have hstep : wbLinesAux lw M n (f + 1) i
            = (i, j) :: wbLinesAux lw M n f j := by
          show (if i < n then
            if wbBreaks lw M n i ≤ i then []
            else (i, wbBreaks lw M n i)
              :: wbLinesAux lw M n f (wbBreaks lw M n i)
            else []) = _
          rw [if_pos hilt, hbrk, if_neg (by omega)]
        obtain ⟨ih1, ih2, ih3⟩ := wb_achieves lw M n hfit1 hmono hsize f j
          (by omega) hjle
        rw [hstep]
        refine ⟨WbPartition.cons hjgt ih1, ?_, ?_⟩
        · intro q hq
          rcases List.mem_cons.mp hq with rfl | hmem
          · exact hjfit
          · exact ih2 q hmem
        · show (M - lw i j) ^ 2 + wbCostOf lw M (wbLinesAux lw M n f j)
            = wbCost lw M n i
          rw [ih3, hcosti]
    · have hieq : i = n := by omega
      subst hieq
      have hnil : wbLinesAux lw M i (f + 1) i = [] := by
        show (if i < i then _ else []) = []
        rw [if_neg (lt_irrefl i)]
      rw [hnil]
      refine ⟨WbPartition.nil, ?_, ?_⟩
      · intro q hq
        simp at hq
      · rw [(wbCost_base lw M i i (le_refl i)).1]
        rfl

/-- Every interval of the reconstruction starts in range and ends at the
recorded break of its start. -/
theorem wbLinesAux_elts (lw : ℕ → ℕ → ℕ) (M n : ℕ) :
    ∀ (f i : ℕ), ∀ q ∈ wbLinesAux lw M n f i,
      q.2 = wbBreaks lw M n q.1 ∧ q.1 < n ∧ q.1 < q.2
  | 0, i, q, hq => by simp [wbLinesAux] at hq
  | f + 1, i, q, hq => by
    by_cases hilt : i < n
    · by_cases hbz : wbBreaks lw M n i ≤ i
      · have : wbLinesAux lw M n (f + 1) i = [] := by
          show (if i < n then if wbBreaks lw M n i ≤ i then [] else _
            else []) = []
          rw [if_pos hilt, if_pos hbz]
        rw [this] at hq
        simp at hq
      · have hstep : wbLinesAux lw M n (f + 1) i
            = (i, wbBreaks lw M n i)
              :: wbLinesAux lw M n f (wbBreaks lw M n i) := by
          show (if i < n then if wbBreaks lw M n i ≤ i then [] else _
            else []) = _
          rw [if_pos hilt, if_neg hbz]
        rw [hstep] at hq
        rcases List.mem_cons.mp hq with rfl | hmem
        · exact ⟨rfl, hilt, by omega⟩
        · exact wbLinesAux_elts lw M n f (wbBreaks lw M n i) q hmem
    · have : wbLinesAux lw M n (f + 1) i = [] := by
        show (if i < n then _ else []) = []
        rw [if_neg hilt]
      rw [this] at hq
      simp at hq

theorem wbPartition_nil (n i : ℕ) (h : WbPartition n i []) : i = n := by
  cases h
  rfl

/-- Tie-break: the recorded break at `i` is the least fitting break point
attaining the DP cost (later candidates only replace on strict decrease). -/
theorem wbBreaks_first (lw : ℕ → ℕ → ℕ) (M n : ℕ)
    (hfit1 : ∀ i < n, lw i (i + 1) ≤ M)
    (hmono : ∀ i2 < n, ∀ j2 ≤ n, ∀ k ≤ n, i2 < j2 → j2 ≤ k →
      lw i2 j2 ≤ lw i2 k)
    (hsize : n * M ^ 2 < wbInf) (i : ℕ) (hilt : i < n) (j : ℕ)
    (hij : i < j) (hjn : j ≤ n) (hfitj : lw i j ≤ M)
    (htot : (M - lw i j) ^ 2 + wbCost lw M n j = wbCost lw M n i) :
    wbBreaks lw M n i ≤ j := by
  have hclt : wbCost lw M n i < wbInf := by
    have hb := wbCost_bound lw M n hfit1 hmono n i (by omega)
    have : (n - i) * M ^ 2 ≤ n * M ^ 2 := Nat.mul_le_mul_right _ (by omega)
    omega
  have hcost : wbCost lw M n i
      = (wbInner lw M (fun u => wbCost lw M n u) i
          (wbFitting lw M n i) (wbInf, n)).1 := by
    show (wbDp lw M n n i).1 = _
    rw [wbDp_unfold_fitting lw M n i hilt]
  have hbrkeq : wbBreaks lw M n i
      = (wbInner lw M (fun u => wbCost lw M n u) i
          (wbFitting lw M n i) (wbInf, n)).2 := by
    show (wbDp lw M n n i).2 = _
    rw [wbDp_unfold_fitting lw M n i hilt]
  obtain ⟨h1, h2, h3⟩ := wbInner_spec lw M (fun u => wbCost lw M n u) i
    (wbFitting lw M n i) wbInf n
    (fun u hu => (wbFitting_facts lw M n i u hu).1)
    (wbFitting_pairwise lw M n i)
  rcases h3 with ⟨hres, -⟩ | ⟨jstar, hjmem, hres, -, hfirst⟩
  · exfalso
    rw [hcost, hres] at hclt
    exact lt_irrefl _ hclt
  · have hbrk : wbBreaks lw M n i = jstar := by rw [hbrkeq, hres]
    rw [hbrk]
    by_contra hcon
    push_neg at hcon
    have hjfitmem : j ∈ wbFitting lw M n i :=
      mem_wbFitting lw M n i j hij hjn hmono hfitj
    have hlt := hfirst j hjfitmem hcon
    rw [← hcost, htot] at hlt
    exact lt_irrefl _ hlt

/-- The one-word slice. -/
theorem sliceWords_single (words : List String) (i : ℕ)
    (h : i < words.length) :
    sliceWords words i (i + 1) = [words.get ⟨i, h⟩] := by
  unfold sliceWords
  have ht : i + 1 - i = 1 := by omega
  rw [ht, List.drop_eq_getElem_cons h]
  rfl

/-- Main assembly for balanced wrapping under the font-metric hypotheses:
`wrap_text_balanced` returns the DP partition, which is a fitting partition
of the words of minimal total squared slack, with the first-found tie-break
on every line's break point. -/
theorem wb_main (ww : List String → ℕ) (M : ℕ) (words : List String)
    (hfitw : ∀ w ∈ words, ww [w] ≤ M)
    (hmono : ∀ i2 < words.length, ∀ j2 ≤ words.length, ∀ k ≤ words.length,
      i2 < j2 → j2 ≤ k → lwOf ww words i2 j2 ≤ lwOf ww words i2 k)
    (hsize : words.length * M ^ 2 < wbInf) :
    wrap_text_balanced ww M words
      = (wbLines (lwOf ww words) M words.length).map
          (fun q => sliceWords words q.1 q.2) ∧
    WbPartition words.length 0 (wbLines (lwOf ww words) M words.length) ∧
    wbFits (lwOf ww words) M (wbLines (lwOf ww words) M words.length) ∧
    (∀ p, WbPartition words.length 0 p → wbFits (lwOf ww words) M p →
      wbCostOf (lwOf ww words) M (wbLines (lwOf ww words) M words.length)
        ≤ wbCostOf (lwOf ww words) M p) ∧
    (∀ q ∈ wbLines (lwOf ww words) M words.length,
      ∀ j, q.1 < j → j ≤ words.length → lwOf ww words q.1 j ≤ M →
      (M - lwOf ww words q.1 j) ^ 2 + wbCost (lwOf ww words) M words.length j
        = wbCost (lwOf ww words) M words.length q.1 →
      q.2 ≤ j) := by
  have hfit1 : ∀ i < words.length, lwOf ww words i (i + 1) ≤ M := by
    intro i hi
    have : lwOf ww words i (i + 1) = ww [words.get ⟨i, hi⟩] := by
      unfold lwOf
      rw [sliceWords_single words i hi]
    rw [this]
    exact hfitw _ (List.get_mem words i hi)
  obtain ⟨hach1, hach2, hach3⟩ := wb_achieves (lwOf ww words) M words.length
    hfit1 hmono hsize words.length 0 (by omega) (Nat.zero_le _)
  have hlines : wbLines (lwOf ww words) M words.length
      = wbLinesAux (lwOf ww words) M words.length words.length 0 := rfl
  rw [← hlines] at hach1 hach2 hach3
  refine ⟨?_, hach1, hach2, ?_, ?_⟩
  · by_cases hwne : words.isEmpty
    · have hwnil : words = [] := List.isEmpty_iff.mp hwne
      subst hwnil
      rfl
    · have hlenpos : 0 < words.length := by
        cases words with
        | nil => simp at hwne
        | cons a l => simp
      have hany : words.any (fun w => decide (M < ww [w])) = false := by
        rw [List.any_eq_false]
        intro w hw
        have := hfitw w hw
        simp
        omega
      have hcost0 : ¬ wbInf ≤ wbCost (lwOf ww words) M words.length 0 := by
        push_neg
        have hb := wbCost_bound (lwOf ww words) M words.length hfit1 hmono
          words.length 0 (by omega)
        rw [Nat.sub_zero] at hb
        omega
      have hLne : ¬ (wbLines (lwOf ww words) M words.length).isEmpty = true := by
        intro hemp
        have hnil : wbLines (lwOf ww words) M words.length = [] :=
          List.isEmpty_iff.mp hemp
        rw [hnil] at hach1
        have := wbPartition_nil words.length 0 hach1
        omega
      unfold wrap_text_balanced
      rw [if_neg (by simp [hwne]), hany]
      simp only [Bool.false_eq_true, if_false]
      rw [if_neg hcost0, if_neg hLne]
  · intro p hp hf
    rw [hach3]
    exact wbCost_le_partition (lwOf ww words) M words.length hmono hp hf
  · intro q hq j hij hjn hfitj htot
    obtain ⟨hqb, hq1, hq2⟩ :=
      wbLinesAux_elts (lwOf ww words) M words.length words.length 0 q hq
    rw [hqb]
    exact wbBreaks_first (lwOf ww words) M words.length hfit1 hmono hsize
      q.1 hq1 j hij hjn hfitj htot

/-- A two-word input whose joined line fits the budget (with the join
strictly wider than the first word alone, as a space always adds width)
comes out as a single line holding both words. -/
theorem wb_two_word (ww : List String → ℕ) (M : ℕ) (w1 w2 : String)
    (h1 : ww [w1] < ww [w1, w2]) (h2 : ww [w2] ≤ ww [w1, w2])
    (h3 : ww [w1, w2] ≤ M) (hM : 2 * M ^ 2 < wbInf) :
    wrap_text_balanced ww M [w1, w2] = [[w1, w2]] := by
  have hl01 : lwOf ww [w1, w2] 0 1 = ww [w1] := rfl
  have hl12 : lwOf ww [w1, w2] 1 2 = ww [w2] := rfl
  have hl02 : lwOf ww [w1, w2] 0 2 = ww [w1, w2] := rfl
  have hMM : M ^ 2 < wbInf := by linarith
  have hsq1 : (M - ww [w1]) ^ 2 ≤ M ^ 2 :=
    Nat.pow_le_pow_left (by omega) 2
  have hsq2 : (M - ww [w2]) ^ 2 ≤ M ^ 2 :=
    Nat.pow_le_pow_left (by omega) 2
  have hsqc : (M - ww [w1, w2]) ^ 2 ≤ M ^ 2 :=
    Nat.pow_le_pow_left (by omega) 2
  have hsqlt : (M - ww [w1, w2]) ^ 2 < (M - ww [w1]) ^ 2 :=
    Nat.pow_lt_pow_left (by omega) (by omega)
  have hc2 : wbCost (lwOf ww [w1, w2]) M 2 2 = 0 :=
    (wbCost_base _ M 2 2 (le_refl 2)).1
  have hdp1 : wbDp (lwOf ww [w1, w2]) M 2 2 1 = ((M - ww [w2]) ^ 2, 2) := by
    rw [wbDp_unfold _ M 2 1 (by omega)]
    have hr : List.range' 2 (2 - 1) = [2] := rfl
    rw [hr]
    simp only [wbInner]
    rw [if_neg (by rw [hl12]; omega),
      if_pos (show (M - lwOf ww [w1, w2] 1 2) ^ 2
          + wbCost (lwOf ww [w1, w2]) M 2 2 < wbInf from by
        rw [hl12, hc2]
        linarith)]
    show ((M - lwOf ww [w1, w2] 1 2) ^ 2
        + wbCost (lwOf ww [w1, w2]) M 2 2, 2) = _
    rw [hl12, hc2, Nat.add_zero]
  have hc1 : wbCost (lwOf ww [w1, w2]) M 2 1 = (M - ww [w2]) ^ 2 := by
    show (wbDp (lwOf ww [w1, w2]) M 2 2 1).1 = _
    rw [hdp1]
  have hdp0 : wbDp (lwOf ww [w1, w2]) M 2 2 0
      = ((M - ww [w1, w2]) ^ 2, 2) := by
    rw [wbDp_unfold _ M 2 0 (by omega)]
    have hr : List.range' 1 (2 - 0) = [1, 2] := rfl
    rw [hr]
    simp only [wbInner]
    rw [if_neg (by rw [hl01]; omega),
      if_pos (show (M - lwOf ww [w1, w2] 0 1) ^ 2
          + wbCost (lwOf ww [w1, w2]) M 2 1 < wbInf from by
        rw [hl01, hc1]
        linarith),
      if_neg (by rw [hl02]; omega),
      if_pos (show (M - lwOf ww [w1, w2] 0 2) ^ 2
            + wbCost (lwOf ww [w1, w2]) M 2 2
          < (M - lwOf ww [w1, w2] 0 1) ^ 2
            + wbCost (lwOf ww [w1, w2]) M 2 1 from by
        rw [hl01, hl02, hc1, hc2]
        linarith)]
    show ((M - lwOf ww [w1, w2] 0 2) ^ 2
        + wbCost (lwOf ww [w1, w2]) M 2 2, 2) = _
    rw [hl02, hc2, Nat.add_zero]
  have hc0 : wbCost (lwOf ww [w1, w2]) M 2 0 = (M - ww [w1, w2]) ^ 2 := by
    show (wbDp (lwOf ww [w1, w2]) M 2 2 0).1 = _
    rw [hdp0]
  have hb0 : wbBreaks (lwOf ww [w1, w2]) M 2 0 = 2 := by
    show (wbDp (lwOf ww [w1, w2]) M 2 2 0).2 = 2
    rw [hdp0]
  have hlines : wbLines (lwOf ww [w1, w2]) M 2 = [(0, 2)] := by
    show wbLinesAux (lwOf ww [w1, w2]) M 2 (1 + 1) 0 = [(0, 2)]
    simp only [wbLinesAux]
    rw [if_pos (by omega), if_neg (by rw [hb0]; omega), hb0]
    show (0, 2) :: wbLinesAux (lwOf ww [w1, w2]) M 2 (0 + 1) 2 = _
    simp only [wbLinesAux]
    rw [if_neg (by omega)]
  have hany : (([w1, w2] : List String).any
      (fun w => decide (M < ww [w]))) = false := by
    rw [List.any_eq_false]
    intro w hw
    rcases List.mem_cons.mp hw with rfl | hw2
    · simp
      omega
    · rcases List.mem_cons.mp hw2 with rfl | h0
      · simp
        omega
      · simp at h0
  have hlen : ([w1, w2] : List String).length = 2 := rfl
  unfold wrap_text_balanced
  rw [if_neg (by simp), hany]
  simp only [Bool.false_eq_true, if_false]
  rw [hlen, if_neg (by rw [hc0]; push_neg; linarith), hlines]
  rw [if_neg (by simp)]
  rfl

/-- C5: balanced wrap (`_wrap_text_balanced`) falls back to greedy wrap
when some single word overflows the budget; otherwise, under the
font-metric hypotheses (each word fits, line width grows with the break
point, and the word count times the squared budget stays below the
`10^18` sentinel), it returns exactly the DP line partition, which
partitions the word sequence, has every line fitting the budget, minimizes
the total squared slack `(max_width - line_width)^2` among all fitting
partitions, and resolves ties in favor of the first-found break (a later
candidate replaces an earlier one only on a strict cost decrease); in
particular, a two-word input that fits on one line yields the single line
holding both words. -/
theorem balanced_wrap_spec (ww : List String → ℕ) (M : ℕ) :
    (∀ words : List String, words.isEmpty = false →
      (words.any (fun w => M < ww [w])) = true →
      wrap_text_balanced ww M words = wrap_text_to_width ww M words) ∧
    (∀ words : List String,
      (∀ w ∈ words, ww [w] ≤ M) →
      (∀ i2 < words.length, ∀ j2 ≤ words.length, ∀ k ≤ words.length,
        i2 < j2 → j2 ≤ k → lwOf ww words i2 j2 ≤ lwOf ww words i2 k) →
      words.length * M ^ 2 < wbInf →
      wrap_text_balanced ww M words
        = (wbLines (lwOf ww words) M words.length).map
            (fun q => sliceWords words q.1 q.2) ∧
      WbPartition words.length 0 (wbLines (lwOf ww words) M words.length) ∧
      wbFits (lwOf ww words) M (wbLines (lwOf ww words) M words.length) ∧
      (∀ p, WbPartition words.length 0 p → wbFits (lwOf ww words) M p →
        wbCostOf (lwOf ww words) M (wbLines (lwOf ww words) M words.length)
          ≤ wbCostOf (lwOf ww words) M p) ∧
      (∀ q ∈ wbLines (lwOf ww words) M words.length,
        ∀ j, q.1 < j → j ≤ words.length → lwOf ww words q.1 j ≤ M →
        (M - lwOf ww words q.1 j) ^ 2
            + wbCost (lwOf ww words) M words.length j
          = wbCost (lwOf ww words) M words.length q.1 →
        q.2 ≤ j)) ∧
    (∀ w1 w2 : String,
      ww [w1] < ww [w1, w2] → ww [w2] ≤ ww [w1, w2] → ww [w1, w2] ≤ M →
      2 * M ^ 2 < wbInf →
      wrap_text_balanced ww M [w1, w2] = [[w1, w2]]) := by
  refine ⟨?_, ?_, ?_⟩
  · intro words hne hany
    unfold wrap_text_balanced
    rw [if_neg (by simp [hne]), if_pos hany]
  · intro words hfitw hmono hsize
    exact wb_main ww M words hfitw hmono hsize
  · intro w1 w2 h1 h2 h3 hM
    exact wb_two_word ww M w1 w2 h1 h2 h3 hM

/-- C5 witness: with a concrete width function (total letters plus one per
gap), the two fitting words `ab` and `cd` wrap onto a single line at width
budget 10, and an overlong word triggers the greedy fallback at budget 1. -/
theorem balanced_wrap_spec_witness :
    wrap_text_balanced
        (fun l => (l.map String.length).sum + (l.length - 1)) 10
        ["ab", "cd"]
      = [["ab", "cd"]] ∧
    wrap_text_balanced
        (fun l => (l.map String.length).sum + (l.length - 1)) 1 ["abc"]
      = wrap_text_to_width
          (fun l => (l.map String.length).sum + (l.length - 1)) 1 ["abc"] :=
  ⟨(balanced_wrap_spec
        (fun l => (l.map String.length).sum + (l.length - 1)) 10).2.2
      "ab" "cd" (by decide) (by decide) (by decide) (by decide),
    (balanced_wrap_spec
        (fun l => (l.map String.length).sum + (l.length - 1)) 1).1
      ["abc"] (by decide) (by decide)⟩
